import Mathlib

/-!
Verification of the bastionzero/keysplitting library (multi-party RSA
signatures under PKCS#1 v1.5) against its specification.

The development shallowly embeds the Go source of the `keysplitting`
package: the split algorithms (`SplitD`, `splitAdditive`,
`splitMultiplicative`, `splitSeed`, `validRandomNumber`), the signing
pipeline (`signPKCS1v15`, `decrypt`, `SignFirst`, `SignNext`), the local
PKCS#1 v1.5 verifier (`verifyPKCS1v15`), and the PEM/DER shard codec
(`EncodePEM` / `DecodePEM`).

Go `math/big` integers are embedded as `ℕ` / `ℤ`; byte slices as
`List ℕ` (each entry a byte value).  Randomized procedures are embedded
as relations characterizing exactly the outputs the code can return for
some sequence of draws of its cryptographic RNG (`crypto/rand` is an
external collaborator whose draws range over `[0, max)`).
-/

set_option maxRecDepth 8000

namespace Keysplitting

/-- Outcome of a Go call: a normal value, a returned non-nil `error`
(with its message), or a runtime panic. -/
inductive GoResult (α : Type) where
  | ok (val : α)
  | err (msg : String)
  | panicked
  deriving DecidableEq, Repr

/-- Sequencing of Go calls that propagate a returned error (the
`if err != nil { return nil, err }` idiom). -/
def GoResult.bind {α β : Type} (x : GoResult α) (f : α → GoResult β) : GoResult β :=
  match x with
  | .ok v => f v
  | .err m => .err m
  | .panicked => .panicked

theorem GoResult.bind_ok {α β : Type} (v : α) (f : α → GoResult β) :
    GoResult.bind (.ok v) f = f v := rfl

/-! Byte-string helpers, embedding the `math/big` methods the source
uses.  Fuel-based structural recursion keeps every definition
kernel-computable. -/

/-- Big-endian base-256 digits of `n`, most significant first, with no
leading zero digit; the empty list for `0`.  This is Go
`(*big.Int).Bytes()` for a non-negative integer (Go returns the bytes of
the absolute value).  The first argument is fuel; `natBytesAux n n`
always has enough. -/
def natBytesAux : ℕ → ℕ → List ℕ
  | 0, _ => []
  | fuel + 1, n => if n = 0 then [] else natBytesAux fuel (n / 256) ++ [n % 256]

/-- Go `(*big.Int).Bytes()` on a non-negative value. -/
def natBytes (n : ℕ) : List ℕ := natBytesAux n n

/-- Go `(*big.Int).SetBytes(bs)`: interpret a byte string as a
big-endian unsigned integer. -/
def fromBytes (bs : List ℕ) : ℕ := bs.foldl (fun a b => a * 256 + b) 0

/-- Go `(*big.Int).FillBytes(buf)` with `len(buf) = k`: the big-endian
encoding left-padded with zeros to exactly `k` bytes.  (Go panics when
the value does not fit in `k` bytes; every call site below guarantees
`v < 256^k`, under which this formula is exact.) -/
def fillBytes (v k : ℕ) : List ℕ :=
  List.replicate (k - (natBytes v).length) 0 ++ natBytes v

/-- Number of bits of `n` (Go `(*big.Int).BitLen()`), fuel-based. -/
def bitLenAux : ℕ → ℕ → ℕ
  | 0, _ => 0
  | fuel + 1, n => if n = 0 then 0 else bitLenAux fuel (n / 2) + 1

/-- Go `(*big.Int).BitLen()` on a non-negative value. -/
def bitLen (n : ℕ) : ℕ := bitLenAux n n

/-- Go `(*rsa.PrivateKey).Size()` / `(*rsa.PublicKey).Size()`:
`(BitLen(N) + 7) / 8`, the byte length of the modulus. -/
def modSize (n : ℕ) : ℕ := (bitLen n + 7) / 8

/-- One combination step of square-and-multiply: `h` is the already
computed power for the halved exponent. -/
def powStep (x h k n : ℕ) : ℕ :=
  if k % 2 = 1 then h * h % n * (x % n) % n else h * h % n

/-- Modular exponentiation by squaring (fuel-based; `powModNat` supplies
`k` as fuel, which suffices since the exponent at least halves each
step).  Computes `x ^ k % n`; for `n = 0` the `% 0` is the identity, so
it computes the plain power, matching Go `Exp(x, k, 0)`. -/
def powModAux : ℕ → ℕ → ℕ → ℕ → ℕ
  | 0, _, _, n => 1 % n
  | fuel + 1, x, k, n =>
    if k = 0 then 1 % n
    else powStep x (powModAux fuel x (k / 2) n) k n

/-- `x ^ k % n`, computable on cryptographic sizes. -/
def powModNat (x k n : ℕ) : ℕ := powModAux k x k n

/-- Go `(*big.Int).ModInverse(g, n)`: the inverse of `g` modulo `n` in
`[0, n)` when `gcd(g, n) = 1`, and `none` (Go: `nil`) otherwise. -/
def modInverseNat (g n : ℕ) : Option ℕ :=
  if Nat.gcd g n = 1 then some (((Nat.gcdA g n) % (n : ℤ)).toNat) else none

/-- Go `(*big.Int).Exp(x, y, n)` with `x, n ≥ 0` and a possibly negative
exponent `y`: for `y ≥ 0` this is `x^y mod n`; for `y < 0` and `n = 0`
Go returns `1`; for `y < 0` and `n ≠ 0` Go inverts `x` modulo `n`
(returning `nil`, here `none`, when `gcd(x, n) ≠ 1`) and raises the
inverse to `-y`. -/
def goExp (x : ℕ) (y : ℤ) (n : ℕ) : Option ℕ :=
  if 0 ≤ y then some (powModNat x y.toNat n)
  else if n = 0 then some 1
  else (modInverseNat x n).map fun xi => powModNat xi (-y).toNat n

/-! Lemmas about the byte helpers. -/

theorem natBytesAux_fuel {n : ℕ} : ∀ {f g : ℕ}, n ≤ f → n ≤ g → natBytesAux f n = natBytesAux g n := by
  induction n using Nat.strong_induction_on with
  | _ n ih =>
    intro f g hf hg
    match f, g with
    | 0, 0 => rfl
    | 0, g + 1 =>
      have hn : n = 0 := Nat.le_zero.mp hf
      subst hn
      simp [natBytesAux]
    | f + 1, 0 =>
      have hn : n = 0 := Nat.le_zero.mp hg
      subst hn
      simp [natBytesAux]
    | f + 1, g + 1 =>
      simp only [natBytesAux]
      rcases eq_or_ne n 0 with rfl | hn
      · simp
      · have hlt : n / 256 < n := Nat.div_lt_self (Nat.pos_of_ne_zero hn) (by norm_num)
        have h1 : n / 256 ≤ f := by omega
        have h2 : n / 256 ≤ g := by omega
        simp only [if_neg hn]
        rw [ih (n / 256) hlt h1 h2]

theorem natBytes_succ (n : ℕ) (hn : n ≠ 0) :
    natBytes n = natBytes (n / 256) ++ [n % 256] := by
  have hlt : n / 256 < n := Nat.div_lt_self (Nat.pos_of_ne_zero hn) (by norm_num)
  rcases Nat.exists_eq_succ_of_ne_zero hn with ⟨m, rfl⟩
  show natBytesAux (m + 1) (m + 1) = _
  simp only [natBytesAux, if_neg hn]
  rw [natBytes, natBytesAux_fuel (Nat.le_of_lt_succ hlt) (le_refl _)]

theorem natBytes_zero : natBytes 0 = [] := rfl

theorem foldl_bytes_shift (ys : List ℕ) : ∀ a : ℕ,
    List.foldl (fun a b => a * 256 + b) a ys =
      a * 256 ^ ys.length + List.foldl (fun a b => a * 256 + b) 0 ys := by
  induction ys with
  | nil => intro a; simp
  | cons y ys ih =>
    intro a
    simp only [List.foldl_cons, List.length_cons]
    rw [ih (a * 256 + y), ih (0 * 256 + y)]
    ring

theorem fromBytes_append (xs ys : List ℕ) :
    fromBytes (xs ++ ys) = fromBytes xs * 256 ^ ys.length + fromBytes ys := by
  rw [fromBytes, List.foldl_append, foldl_bytes_shift]
  rfl

theorem fromBytes_natBytes (n : ℕ) : fromBytes (natBytes n) = n := by
  induction n using Nat.strong_induction_on with
  | _ n ih =>
    rcases eq_or_ne n 0 with rfl | hn
    · rfl
    · rw [natBytes_succ n hn, fromBytes_append,
        ih (n / 256) (Nat.div_lt_self (Nat.pos_of_ne_zero hn) (by norm_num))]
      show n / 256 * 256 ^ 1 + (0 * 256 + n % 256) = n
      simp only [pow_one, Nat.zero_mul, Nat.zero_add]
      omega

theorem natBytes_lt (n : ℕ) : n < 256 ^ (natBytes n).length := by
  induction n using Nat.strong_induction_on with
  | _ n ih =>
    rcases eq_or_ne n 0 with rfl | hn
    · simp [natBytes_zero]
    · rw [natBytes_succ n hn]
      simp only [List.length_append, List.length_cons, List.length_nil]
      have h := ih (n / 256) (Nat.div_lt_self (Nat.pos_of_ne_zero hn) (by norm_num))
      have h1 : n < (n / 256 + 1) * 256 := by omega
      calc n < (n / 256 + 1) * 256 := h1
        _ ≤ 256 ^ (natBytes (n / 256)).length * 256 := Nat.mul_le_mul_right 256 h
        _ = 256 ^ ((natBytes (n / 256)).length + (0 + 1)) := by ring

theorem natBytes_length_le {n k : ℕ} (h : n < 256 ^ k) : (natBytes n).length ≤ k := by
  induction n using Nat.strong_induction_on generalizing k with
  | _ n ih =>
    rcases eq_or_ne n 0 with rfl | hn
    · simp [natBytes_zero]
    · rw [natBytes_succ n hn]
      simp only [List.length_append, List.length_cons, List.length_nil]
      match k with
      | 0 =>
        norm_num at h
        omega
      | k + 1 =>
        have hdiv : n / 256 < 256 ^ k := by
          rw [Nat.div_lt_iff_lt_mul (by norm_num)]
          calc n < 256 ^ (k + 1) := h
            _ = 256 ^ k * 256 := by ring
        have := ih (n / 256) (Nat.div_lt_self (Nat.pos_of_ne_zero hn) (by norm_num)) hdiv
        omega

theorem fromBytes_replicate_zero : ∀ m : ℕ, fromBytes (List.replicate m 0) = 0 := by
  intro m
  induction m with
  | zero => rfl
  | succ m ihm =>
    rw [List.replicate_succ]
    show List.foldl (fun a b => a * 256 + b) (0 * 256 + 0) (List.replicate m 0) = 0
    simpa [fromBytes] using ihm

theorem fillBytes_length {v k : ℕ} (h : v < 256 ^ k) : (fillBytes v k).length = k := by
  have hle := natBytes_length_le h
  simp only [fillBytes, List.length_append, List.length_replicate]
  omega

theorem fromBytes_fillBytes (v k : ℕ) : fromBytes (fillBytes v k) = v := by
  rw [fillBytes, fromBytes_append, fromBytes_replicate_zero, fromBytes_natBytes]
  simp

theorem powModAux_eq (x n : ℕ) : ∀ (f k : ℕ), k ≤ f → powModAux f x k n = x ^ k % n := by
  intro f
  induction f with
  | zero =>
    intro k hk
    have : k = 0 := Nat.le_zero.mp hk
    subst this
    simp [powModAux]
  | succ f ihf =>
    intro k hk
    rcases eq_or_ne k 0 with rfl | hkne
    · simp [powModAux]
    · have hk2 : k / 2 ≤ f := by
        have : k / 2 < k := Nat.div_lt_self (Nat.pos_of_ne_zero hkne) (by norm_num)
        omega
      simp only [powModAux, if_neg hkne]
      rw [ihf (k / 2) hk2, powStep]
      rcases Nat.mod_two_eq_zero_or_one k with h2 | h2
      · rw [h2]
        norm_num
        have hx : x ^ k = x ^ (k / 2) * x ^ (k / 2) := by
          rw [← pow_add]
          congr 1
          omega
        rw [hx, Nat.mul_mod]
      · rw [h2]
        norm_num
        have hx : x ^ k = x ^ (k / 2) * x ^ (k / 2) * x := by
          rw [← pow_add, ← pow_succ]
          congr 1
          omega
        rw [hx, Nat.mul_mod (x ^ (k / 2) * x ^ (k / 2)) x, Nat.mul_mod (x ^ (k / 2)) (x ^ (k / 2))]

theorem powModNat_eq (x k n : ℕ) : powModNat x k n = x ^ k % n :=
  powModAux_eq x n k k (le_refl k)

theorem powModNat_lt {x k n : ℕ} (hn : 0 < n) : powModNat x k n < n := by
  rw [powModNat_eq]
  exact Nat.mod_lt _ hn

theorem modInverseNat_spec {g n v : ℕ} (hn : 0 < n) (h : modInverseNat g n = some v) :
    g * v % n = 1 % n ∧ v < n := by
  rw [modInverseNat] at h
  by_cases hg : Nat.gcd g n = 1
  · rw [if_pos hg, Option.some_inj] at h
    have hnz : (n : ℤ) ≠ 0 := by exact_mod_cast Nat.pos_iff_ne_zero.mp hn
    have hmod_nonneg : 0 ≤ Nat.gcdA g n % (n : ℤ) := Int.emod_nonneg _ hnz
    have hmod_lt : Nat.gcdA g n % (n : ℤ) < n := Int.emod_lt_of_pos _ (by exact_mod_cast hn)
    have hv : (v : ℤ) = Nat.gcdA g n % (n : ℤ) := by
      rw [← h, Int.toNat_of_nonneg hmod_nonneg]
    have hbezout : (1 : ℤ) = g * Nat.gcdA g n + n * Nat.gcdB g n := by
      have := Nat.gcd_eq_gcd_ab g n
      rw [hg] at this
      exact_mod_cast this
    have key : (g : ℤ) * v % n = 1 % n := by
      rw [hv]
      conv_rhs => rw [hbezout]
      rw [Int.add_mul_emod_self_left]
      conv_lhs => rw [Int.mul_emod]
      rw [Int.emod_emod_of_dvd _ (dvd_refl _), ← Int.mul_emod]
    constructor
    · have : ((g * v % n : ℕ) : ℤ) = ((1 % n : ℕ) : ℤ) := by
        rw [Int.natCast_mod, Int.natCast_mod]
        push_cast
        exact key
      exact_mod_cast this
    · omega
  · rw [if_neg hg] at h
    exact absurd h (by simp)

theorem modInverseNat_isSome {g n : ℕ} (hg : Nat.gcd g n = 1) :
    modInverseNat g n = some (((Nat.gcdA g n) % (n : ℤ)).toNat) := by
  rw [modInverseNat, if_pos hg]

/-- Exact characterization of Go `Exp(x, y, n)` for a base coprime to a
modulus `n > 1`: it always succeeds and returns the canonical
representative of `x ^ y` computed in the unit group of `ZMod n`. -/
theorem goExp_unit {n : ℕ} (hn : 1 < n) {x : ℕ} (hx : Nat.Coprime x n) (y : ℤ) :
    goExp x y n = some ((((ZMod.unitOfCoprime x hx : (ZMod n)ˣ) ^ y : (ZMod n)ˣ) : ZMod n).val) := by
  have hn0 : 0 < n := by omega
  have : NeZero n := ⟨by omega⟩
  rcases le_or_lt 0 y with hy | hy
  · rw [goExp, if_pos hy]
    congr 1
    rw [powModNat_eq]
    obtain ⟨t, rfl⟩ : ∃ t : ℕ, y = (t : ℤ) := ⟨y.toNat, (Int.toNat_of_nonneg hy).symm⟩
    rw [Int.toNat_natCast, zpow_natCast]
    rw [← ZMod.val_natCast]
    congr 1
    rw [Nat.cast_pow, Units.val_pow_eq_pow_val, ZMod.coe_unitOfCoprime]
  · rw [goExp, if_neg (not_le.mpr hy), if_neg (by omega)]
    rw [modInverseNat_isSome hx]
    simp only [Option.map_some']
    congr 1
    set xi : ℕ := (Nat.gcdA x n % (n : ℤ)).toNat with hxi
    have hspec := modInverseNat_spec hn0 (modInverseNat_isSome hx)
    rw [← hxi] at hspec
    set u : (ZMod n)ˣ := ZMod.unitOfCoprime x hx with hu
    have hxiu : (xi : ZMod n) = ((u⁻¹ : (ZMod n)ˣ) : ZMod n) := by
      have hmul : (x : ZMod n) * (xi : ZMod n) = 1 := by
        have : ((x * xi % n : ℕ) : ZMod n) = ((1 % n : ℕ) : ZMod n) := by rw [hspec.1]
        rwa [ZMod.natCast_mod, ZMod.natCast_mod, Nat.cast_mul, Nat.cast_one] at this
      have hxu : (x : ZMod n) = (u : ZMod n) := (ZMod.coe_unitOfCoprime x hx).symm
      calc (xi : ZMod n) = ((u⁻¹ : (ZMod n)ˣ) : ZMod n) * ((u : (ZMod n)ˣ) : ZMod n) * xi := by
            rw [← Units.val_mul, inv_mul_cancel, Units.val_one, one_mul]
        _ = ((u⁻¹ : (ZMod n)ˣ) : ZMod n) * ((x : ZMod n) * xi) := by rw [hxu]; ring
        _ = ((u⁻¹ : (ZMod n)ˣ) : ZMod n) := by rw [hmul, mul_one]
    have hyform : y = -(((-y).toNat : ℕ) : ℤ) := by omega
    rw [powModNat_eq]
    conv_rhs => rw [hyform]
    rw [zpow_neg, zpow_natCast, ← inv_pow]
    rw [← ZMod.val_natCast]
    congr 1
    push_cast
    rw [hxiu]

/-! Data model: the Go structs the keysplitting package uses. -/

/-- Go `crypto/rsa.PublicKey`: modulus `N` and public exponent `E` (a Go
`int`, hence `ℤ`). -/
structure PublicKey where
  N : ℕ
  E : ℤ
  deriving DecidableEq, Repr

/-- Go `crypto/rsa.PrivateKey`, restricted to the fields the
keysplitting package reads: the embedded public key, the private
exponent `D`, and the prime factors `Primes` of `N`. -/
structure PrivateKey where
  PublicKey : PublicKey
  D : ℤ
  Primes : List ℕ
  deriving DecidableEq, Repr

/-- Go `keysplitting.SplitPrivateKey` (examples/metrics source, second
document, lines 14-19 of splitprivatekey section): one shard of a split
RSA key: the shared public key and the split private exponent. -/
structure SplitPrivateKey where
  PublicKey : PublicKey
  D : ℤ
  deriving DecidableEq, Repr

/-- Go `keysplitting.SplitBy`, an `int`-valued enum. -/
abbrev SplitBy := ℤ

/-- First enum value of `SplitBy` (iota = 0) in the keysplitting
package. -/
def Multiplication : SplitBy := 0

/-- Second enum value of `SplitBy` (iota + 1 = 1) in the keysplitting
package. -/
def Addition : SplitBy := 1

/-- Go `congruentModN(a, b, N)` (congruence source): check that `N`
divides `a - b` by comparing Euclidean remainders (Go `Mod` returns the
representative in `[0, N)` for positive `N`, as does `Int.emod`). -/
def congruentModN (a b n : ℤ) : Bool := decide (a % n = b % n)

/-- Go `eulerTotient(primes)`: `(primes[0]-1) * (primes[1]-1)` followed
by a loop multiplying `primes[i]-1` for `i ≥ 2`.  The unchecked index
accesses `primes[0]` and `primes[1]` panic (here `none`) when the list
has fewer than two entries. -/
def eulerTotient (primes : List ℕ) : Option ℕ :=
  match primes with
  | p0 :: p1 :: rest => some (rest.foldl (fun phi p => phi * (p - 1)) ((p0 - 1) * (p1 - 1)))
  | _ => none

theorem foldl_totient (rest : List ℕ) : ∀ a : ℕ,
    rest.foldl (fun phi p => phi * (p - 1)) a = a * (rest.map (· - 1)).prod := by
  induction rest with
  | nil => intro a; simp
  | cons p rest ih =>
    intro a
    simp only [List.foldl_cons, List.map_cons, List.prod_cons]
    rw [ih]
    ring

theorem eulerTotient_eq_prod {primes : List ℕ} (h : 2 ≤ primes.length) :
    eulerTotient primes = some ((primes.map (· - 1)).prod) := by
  match primes with
  | [] => simp at h
  | [p] => simp at h
  | p0 :: p1 :: rest =>
    simp only [eulerTotient, List.map_cons, List.prod_cons]
    rw [foldl_totient]
    ring_nf

/-! The split algorithms.  `SplitD` and its two helpers draw from the
cryptographic RNG inside rejection-sampling loops; the embedding
characterizes, for each input, exactly the set of outputs some sequence
of RNG draws can produce (assuming, as the code does, that the RNG
itself never returns an error). -/

/-- Go `validRandomNumber(phi, seed)` (metrics source §keysplitting
287-308): the rejection loop draws `r` uniformly from `[0, phi)`
(`rand.Int`), retries while `gcd(r, phi) ≠ 1` or `r ∈ {0, 1, seed}`, and
returns the first accepted draw.  A value is a possible output exactly
when it passes all the checks. -/
def validRandomNumber (phi seed r : ℤ) : Prop :=
  0 ≤ r ∧ r < phi ∧ Int.gcd r phi = 1 ∧ r ≠ 0 ∧ r ≠ 1 ∧ r ≠ seed

instance (phi seed r : ℤ) : Decidable (validRandomNumber phi seed r) := by
  unfold validRandomNumber
  infer_instance

/-- The final-slot correction of Go `splitAdditive` (metrics source
§keysplitting 234-260): compare the running sum with `D`; `none` encodes
the `sum = D` case in which the code restarts the whole search. -/
def lastShardAdditive (D sum phi : ℤ) : Option ℤ :=
  if sum < D then some (D - sum)
  else if D < sum then some (phi - sum + D)
  else none

/-- Go `splitAdditive(priv, k, phi)` (metrics source §keysplitting
223-280): possible returned lists of shard exponents.  The first `k - 1`
slots are distinct accepted draws of `validRandomNumber(phi, priv.D)`;
the last slot is the correction term, and the whole list must be
duplicate-free (the code restarts otherwise). -/
def splitAdditiveRel (D phi : ℤ) (k : ℕ) (ds : List ℤ) : Prop :=
  ∃ init dk, ds = init ++ [dk] ∧ init.length = k - 1 ∧
    (∀ x ∈ init, validRandomNumber phi D x) ∧
    lastShardAdditive D init.sum phi = some dk ∧
    List.Pairwise (fun a b => a ≠ b) ds

/-- Contract of Go `ModInverse(g, phi)` as used by `splitSeed`: `ai` is
the unique representative in `[0, phi)` with `g * ai ≡ 1 (mod phi)`. -/
def modInverseSpec (g phi ai : ℤ) : Prop :=
  0 ≤ ai ∧ ai < phi ∧ (g * ai) % phi = 1 % phi

instance (g phi ai : ℤ) : Decidable (modInverseSpec g phi ai) := by
  unfold modInverseSpec
  infer_instance

/-- Go `splitSeed(seed, phi)` (metrics source §keysplitting 197-220):
possible output pairs.  `shardA` is an accepted draw of
`validRandomNumber(phi, seed)` (hence coprime to `phi`, so its inverse
exists and the defensive `continue` never fires), and
`shardB = seed * shardA⁻¹` — the product is NOT reduced modulo `phi` by
the code. -/
def splitSeedRel (seed phi a b : ℤ) : Prop :=
  validRandomNumber phi seed a ∧ ∃ ai, modInverseSpec a phi ai ∧ b = seed * ai

/-- Go `splitMultiplicative(priv, k, phi)` (metrics source §keysplitting
161-194): possible returned lists.  Each loop iteration splits the
current seed into `(shardA, shardB)`, emits `shardA`, and either
finishes with `shardB` (when one shard is missing) or recurses with
`shardB` as the new seed. -/
inductive splitMultiplicativeRel (phi : ℤ) : ℤ → ℕ → List ℤ → Prop
  | base {seed a b : ℤ} : splitSeedRel seed phi a b → splitMultiplicativeRel phi seed 2 [a, b]
  | step {seed a b : ℤ} {k : ℕ} {ds : List ℤ} :
      splitSeedRel seed phi a b → splitMultiplicativeRel phi b (k + 2) ds →
      splitMultiplicativeRel phi seed (k + 3) (a :: ds)

/-- Go `SplitD(priv, k, splitBy)` (metrics source §keysplitting
138-155): rejects `k < 2` with an error, computes
`eulerTotient(priv.Primes)` (which panics when the key has fewer than
two primes), and dispatches on the scheme, with unknown scheme values
rejected by the `default` branch. -/
def SplitDRel (priv : PrivateKey) (k : ℕ) (splitBy : SplitBy)
    (out : GoResult (List SplitPrivateKey)) : Prop :=
  if k < 2 then out = .err "cannot split key into fewer than 2 shards"
  else
    match eulerTotient priv.Primes with
    | none => out = .panicked
    | some phi =>
      if splitBy = Multiplication then
        ∃ ds, out = .ok (ds.map fun di => ⟨priv.PublicKey, di⟩) ∧
          splitMultiplicativeRel (phi : ℤ) priv.D k ds
      else if splitBy = Addition then
        ∃ ds, out = .ok (ds.map fun di => ⟨priv.PublicKey, di⟩) ∧
          splitAdditiveRel priv.D (phi : ℤ) k ds
      else out = .err "unrecognized splitBy argument"

/-! Core congruence lemmas about the split relations (shared by several
claim theorems below). -/

theorem splitAdditiveRel_length {D phi : ℤ} {k : ℕ} {ds : List ℤ}
    (hk : 2 ≤ k) (h : splitAdditiveRel D phi k ds) : ds.length = k := by
  obtain ⟨init, dk, rfl, hlen, -, -, -⟩ := h
  simp [List.length_append, hlen]
  omega

theorem splitAdditiveRel_sum {D phi : ℤ} {k : ℕ} {ds : List ℤ}
    (h : splitAdditiveRel D phi k ds) : ds.sum % phi = D % phi := by
  obtain ⟨init, dk, rfl, -, -, hlast, -⟩ := h
  rw [List.sum_append, List.sum_cons, List.sum_nil, add_zero]
  rw [lastShardAdditive] at hlast
  by_cases h1 : init.sum < D
  · rw [if_pos h1, Option.some_inj] at hlast
    rw [← hlast]
    ring_nf
  · rw [if_neg h1] at hlast
    by_cases h2 : D < init.sum
    · rw [if_pos h2, Option.some_inj] at hlast
      rw [← hlast]
      have : init.sum + (phi - init.sum + D) = D + phi * 1 := by ring
      rw [this, Int.add_mul_emod_self_left]
    · rw [if_neg h2] at hlast
      exact absurd hlast (by simp)

theorem splitMultiplicativeRel_length {phi seed : ℤ} {k : ℕ} {ds : List ℤ}
    (h : splitMultiplicativeRel phi seed k ds) : ds.length = k := by
  induction h with
  | base _ => rfl
  | step _ _ ih => simp [List.length_cons, ih]

theorem splitSeedRel_prod {seed phi a b : ℤ} (h : splitSeedRel seed phi a b) :
    (a * b) % phi = seed % phi := by
  obtain ⟨-, ai, ⟨-, -, hinv⟩, rfl⟩ := h
  have : a * (seed * ai) = seed * (a * ai) := by ring
  rw [this]
  calc seed * (a * ai) % phi = seed % phi * (a * ai % phi) % phi := by rw [Int.mul_emod]
    _ = seed % phi * (1 % phi) % phi := by rw [hinv]
    _ = seed * 1 % phi := by rw [← Int.mul_emod]
    _ = seed % phi := by rw [mul_one]

theorem splitMultiplicativeRel_prod {phi seed : ℤ} {k : ℕ} {ds : List ℤ}
    (h : splitMultiplicativeRel phi seed k ds) : ds.prod % phi = seed % phi := by
  induction h with
  | base hseed =>
    simpa using splitSeedRel_prod hseed
  | @step seed a b k ds hseed htail ih =>
    rw [List.prod_cons]
    calc a * ds.prod % phi = a % phi * (ds.prod % phi) % phi := by rw [Int.mul_emod]
      _ = a % phi * (b % phi) % phi := by rw [ih]
      _ = a * b % phi := by rw [← Int.mul_emod]
      _ = seed % phi := splitSeedRel_prod hseed

/-! The signing pipeline.  `signPKCS1v15` and `decrypt` are the
keysplitting package's copies of the Go stdlib PKCS#1 v1.5 signer
(mpcrsa test source, second keysplitting document, lines 445-511), with
CRT, blinding, and the `d*e ≡ 1` consistency check removed because they
are invalid for a shard; `verifyPKCS1v15` and `encrypt` are the local
verifier from the same source file (lines 344-397 of the mpcrsa
document), behaviorally the stdlib `rsa.VerifyPKCS1v15`. -/

/-- Stand-in for the `io.Reader` RNG handed to the sign calls.  The
keysplitting signer accepts it for interface parity and never reads it
(no blinding is possible for a shard). -/
abbrev RandomSource := ℕ

/-- Go `crypto.Hash.Size()` for the hash identifiers registered in the
`crypto` package (`MD4 = 1` through `BLAKE2b_512 = 19`); `none` encodes
the panic on an unknown identifier. -/
def hashSize (h : ℕ) : Option ℕ :=
  match h with
  | 1 => some 16   -- MD4
  | 2 => some 16   -- MD5
  | 3 => some 20   -- SHA1
  | 4 => some 28   -- SHA224
  | 5 => some 32   -- SHA256
  | 6 => some 48   -- SHA384
  | 7 => some 64   -- SHA512
  | 8 => some 36   -- MD5SHA1
  | 9 => some 20   -- RIPEMD160
  | 10 => some 28  -- SHA3_224
  | 11 => some 32  -- SHA3_256
  | 12 => some 48  -- SHA3_384
  | 13 => some 64  -- SHA3_512
  | 14 => some 28  -- SHA512_224
  | 15 => some 32  -- SHA512_256
  | 16 => some 32  -- BLAKE2s_256
  | 17 => some 32  -- BLAKE2b_256
  | 18 => some 48  -- BLAKE2b_384
  | 19 => some 64  -- BLAKE2b_512
  | _ => none

/-- The `hashPrefixes` table (mpcrsa test source, keysplitting sign
document lines 421-430): the precomputed DER `DigestInfo` prefix for
each supported hash; `MD5SHA1` (the TLS case) has an empty prefix;
`none` is a missing map entry. -/
def hashPrefixTable (h : ℕ) : Option (List ℕ) :=
  match h with
  | 2 => some [0x30, 0x20, 0x30, 0x0c, 0x06, 0x08, 0x2a, 0x86, 0x48, 0x86, 0xf7, 0x0d,
               0x02, 0x05, 0x05, 0x00, 0x04, 0x10]
  | 3 => some [0x30, 0x21, 0x30, 0x09, 0x06, 0x05, 0x2b, 0x0e, 0x03, 0x02, 0x1a, 0x05,
               0x00, 0x04, 0x14]
  | 4 => some [0x30, 0x2d, 0x30, 0x0d, 0x06, 0x09, 0x60, 0x86, 0x48, 0x01, 0x65, 0x03,
               0x04, 0x02, 0x04, 0x05, 0x00, 0x04, 0x1c]
  | 5 => some [0x30, 0x31, 0x30, 0x0d, 0x06, 0x09, 0x60, 0x86, 0x48, 0x01, 0x65, 0x03,
               0x04, 0x02, 0x01, 0x05, 0x00, 0x04, 0x20]
  | 6 => some [0x30, 0x41, 0x30, 0x0d, 0x06, 0x09, 0x60, 0x86, 0x48, 0x01, 0x65, 0x03,
               0x04, 0x02, 0x02, 0x05, 0x00, 0x04, 0x30]
  | 7 => some [0x30, 0x51, 0x30, 0x0d, 0x06, 0x09, 0x60, 0x86, 0x48, 0x01, 0x65, 0x03,
               0x04, 0x02, 0x03, 0x05, 0x00, 0x04, 0x40]
  | 8 => some []
  | 9 => some [0x30, 0x20, 0x30, 0x08, 0x06, 0x06, 0x28, 0xcf, 0x06, 0x03, 0x00, 0x31,
               0x04, 0x14]
  | _ => none

/-- Go `pkcs1v15HashInfo(hash, inLen)` (keysplitting sign document
475-491): `hash = 0` signs the input directly; otherwise the input
length must equal the digest size and the hash must be in the prefix
table. -/
def pkcs1v15HashInfo (hash : ℕ) (inLen : ℕ) : GoResult (ℕ × List ℕ) :=
  if hash = 0 then .ok (inLen, [])
  else
    match hashSize hash with
    | none => .panicked
    | some hashLen =>
      if inLen ≠ hashLen then .err "crypto/rsa: input must be hashed message"
      else
        match hashPrefixTable hash with
        | none => .err "crypto/rsa: unsupported hash function"
        | some pfx => .ok (hashLen, pfx)

/-- The `EM` block built by `signPKCS1v15` for `k ≥ tLen + 11` (the only
case in which it is built): `EM = 00 01 FF..FF 00 ‖ prefix ‖ hashed`
with `k - tLen - 3` bytes of `FF`. -/
def emBytes (k tLen : ℕ) (pfx hashed : List ℕ) : List ℕ :=
  0 :: 1 :: (List.replicate (k - tLen - 3) 0xff ++ (0 :: (pfx ++ hashed)))

/-- Go keysplitting `decrypt(random, priv, c)` (keysplitting sign
document 494-511): rejects `c > N` and `N = 0` with
`rsa.ErrDecryption`, then performs the single modular exponentiation
`c^D mod N` with no blinding and no CRT.  The inner `Option` mirrors
the `m` pointer: Go `Exp` returns `nil` (with a nil error) when `D < 0`
and `c` is not invertible modulo `N`. -/
def decrypt (random : RandomSource) (priv : PrivateKey) (c : ℕ) : GoResult (Option ℕ) :=
  if priv.PublicKey.N < c then .err "crypto/rsa: decryption error"
  else if priv.PublicKey.N = 0 then .err "crypto/rsa: decryption error"
  else .ok (goExp c priv.D priv.PublicKey.N)

/-- Go keysplitting `signPKCS1v15(random, priv, hash, hashed)`
(keysplitting sign document 445-473): build `EM`, interpret it as an
integer, `decrypt`, and emit the result left-padded to `k` bytes with
`FillBytes`.  When `decrypt` hands back a nil pointer with a nil error,
the `c.FillBytes(em)` call dereferences nil and panics. -/
def signPKCS1v15 (random : RandomSource) (priv : PrivateKey) (hash : ℕ)
    (hashed : List ℕ) : GoResult (List ℕ) :=
  match pkcs1v15HashInfo hash hashed.length with
  | .err msg => .err msg
  | .panicked => .panicked
  | .ok (hashLen, pfx) =>
    let tLen := pfx.length + hashLen
    let k := modSize priv.PublicKey.N
    if k < tLen + 11 then .err "crypto/rsa: message too long for RSA key size"
    else
      match decrypt random priv (fromBytes (emBytes k tLen pfx hashed)) with
      | .err msg => .err msg
      | .panicked => .panicked
      | .ok none => .panicked
      | .ok (some c) => .ok (fillBytes c k)

/-- Go `SignFirst(random, shard, hashFn, hashed)` (metrics source
§keysplitting 332-339): wrap the shard in an `rsa.PrivateKey` (public
key plus shard exponent, no primes) and run the partial signer. -/
def SignFirst (random : RandomSource) (shard : SplitPrivateKey) (hashFn : ℕ)
    (hashed : List ℕ) : GoResult (List ℕ) :=
  signPKCS1v15 random ⟨shard.PublicKey, shard.D, []⟩ hashFn hashed

/-- Go `SignNext(random, shard, hashFn, hashed, splitBy, partialSig)`
(metrics source §keysplitting 348-372).  Multiplication:
`partialSig^D mod N`, with an error if `Exp` returns nil.  Addition: a
fresh partial signature of the hashed message multiplied into the
running product modulo `N`.  Both branches emit minimal big-endian
bytes (`Bytes()`, not `FillBytes`).  The `Mod` in the Addition branch
is reached only after `SignFirst` succeeds, which rules out `N = 0`. -/
def SignNext (random : RandomSource) (shard : SplitPrivateKey) (hashFn : ℕ)
    (hashed : List ℕ) (splitBy : SplitBy) (partSig : List ℕ) : GoResult (List ℕ) :=
  if splitBy = Multiplication then
    match goExp (fromBytes partSig) shard.D shard.PublicKey.N with
    | none => .err "failed to add next signature with the given shard, public key, and partial signature"
    | some v => .ok (natBytes v)
  else if splitBy = Addition then
    match SignFirst random shard hashFn hashed with
    | .err msg => .err msg
    | .panicked => .panicked
    | .ok nextBaseSig =>
      .ok (natBytes (fromBytes nextBaseSig * fromBytes partSig % shard.PublicKey.N))
  else .err "unrecognized splitBy argument"

/-- The sequential signing flow exercised by the package's tests and the
metrics example: `SignFirst` with the first shard, then `SignNext` with
each remaining shard in turn, aborting on the first error.  Indexing
`shards[0]` on an empty slice panics. -/
def signChain (random : RandomSource) (shards : List SplitPrivateKey) (hashFn : ℕ)
    (hashed : List ℕ) (splitBy : SplitBy) : GoResult (List ℕ) :=
  match shards with
  | [] => .panicked
  | s0 :: rest =>
    rest.foldl (fun acc s => acc.bind fun sig => SignNext random s hashFn hashed splitBy sig)
      (SignFirst random s0 hashFn hashed)

/-- Go `encrypt(c, pub, m)` (mpcrsa test source, first document, lines
393-397): `c.Exp(m, E, N)` starting from a fresh zero receiver.  When
`Exp` fails (negative `E` with non-invertible base) the receiver is left
unchanged, so the function returns `0`. -/
def encrypt (pub : PublicKey) (m : ℕ) : ℕ :=
  match goExp m pub.E pub.N with
  | some v => v
  | none => 0

/-- Go `verifyPKCS1v15(pub, hash, hashed, sig)` (mpcrsa test source,
first document, lines 344-391), which mirrors the stdlib
`rsa.VerifyPKCS1v15`: reject a modulus too small for the padding or a
signature whose length differs from `k`; otherwise exponentiate by `E`,
left-pad to `k` bytes, and compare every field of the expected
`EM = 00 01 FF..FF 00 ‖ prefix ‖ hashed` block. -/
def verifyPKCS1v15 (pub : PublicKey) (hash : ℕ) (hashed sig : List ℕ) : GoResult Unit :=
  match pkcs1v15HashInfo hash hashed.length with
  | .err msg => .err msg
  | .panicked => .panicked
  | .ok (hashLen, pfx) =>
    let tLen := pfx.length + hashLen
    let k := modSize pub.N
    if k < tLen + 11 then .err "crypto/rsa: verification error"
    else if k ≠ sig.length then .err "crypto/rsa: verification error"
    else
      let em := fillBytes (encrypt pub (fromBytes sig)) k
      if em.getD 0 0 = 0 ∧ em.getD 1 0 = 1 ∧
          (em.drop (k - hashLen)).take hashLen = hashed ∧
          (em.drop (k - tLen)).take (tLen - hashLen) = pfx ∧
          em.getD (k - tLen - 1) 0 = 0 ∧
          ((em.drop 2).take (k - tLen - 3)).all (fun b => b = 0xff)
      then .ok ()
      else .err "crypto/rsa: verification error"

/-! The shard codec.  The repository snapshot carries two versions of
`splitprivatekey.go`, both in package keysplitting: an earlier one
(file `splitprivatekey.go`) whose shard type `SplitPrivateKey` has no
scheme field and whose `DecodePEM` ignores the unmarshaler's remainder,
and a later one (second document of the mpcrsa test source, lines
113-186) whose shard type `PrivateKeyShard` carries the `SplitBy` tag
and rejects trailing bytes at both the PEM and the DER layer.  The
specification's §4.6 schema (with the `splitBy INTEGER` field) and its
decoding-failure list describe the later version; both are embedded
below.  `encoding/asn1` and `encoding/pem` are Go stdlib collaborators:
the DER producer/parser for this fixed schema is embedded exactly, and
the PEM armor layer is embedded at the block level (a `pem.Block` is a
type string plus payload bytes; `pem.Decode` also returns the text
remaining after the armor). -/

/-- Go `keysplitting.PrivateKeyShard` (mpcrsa test source, second
document, lines 116-122): shared public key, split private exponent,
and the scheme used to split the original key. -/
structure PrivateKeyShard where
  PublicKey : PublicKey
  D : ℤ
  SplitBy : SplitBy
  deriving DecidableEq, Repr

/-- The PEM type string of a shard block. -/
def pemType : String := "RSA SPLIT PRIVATE KEY"

/-- A Go `pem.Block`: the armor type line and the base64-decoded
payload. -/
structure PEMBlock where
  blockType : String
  blockBytes : List ℕ
  deriving DecidableEq, Repr

/-- DER length octets: short form below 128, otherwise long form
(`0x80 + count` followed by the big-endian length bytes). -/
def derLen (n : ℕ) : List ℕ :=
  if n < 128 then [n] else (128 + (natBytes n).length) :: natBytes n

/-- A DER tag-length-value triple. -/
def derTLV (tag : ℕ) (content : List ℕ) : List ℕ :=
  tag :: (derLen content.length ++ content)

/-- DER `OCTET STRING` (tag `0x04`), as `encoding/asn1` emits for a
`[]byte` field. -/
def derOctet (bs : List ℕ) : List ℕ := derTLV 0x04 bs

/-- Minimal two's-complement content bytes of a DER `INTEGER`, as
`encoding/asn1` emits for an `int`-typed field: at least one byte, a
leading zero byte exactly when the top bit of a non-negative value
would otherwise be set, and for negatives the shortest two's-complement
form. -/
def derIntBytes (i : ℤ) : List ℕ :=
  if 0 ≤ i then
    match natBytes i.toNat with
    | [] => [0]
    | b :: bs => if 128 ≤ b then 0 :: b :: bs else b :: bs
  else
    let width := (bitLen ((-i - 1).toNat) + 8) / 8
    fillBytes (i + 2 ^ (8 * width)).toNat width

/-- DER `INTEGER` (tag `0x02`). -/
def derInt (i : ℤ) : List ℕ := derTLV 0x02 (derIntBytes i)

/-- DER `SEQUENCE` (tag `0x30`). -/
def derSeq (content : List ℕ) : List ℕ := derTLV 0x30 content

/-- `asn1.Marshal` of the encode-decode placeholder
`privateKeyShard{publicKey{N, E}, D, SplitBy}` (mpcrsa test source,
second document, lines 124-147): a SEQUENCE of the public-key SEQUENCE
(`N` as OCTET STRING of `N.Bytes()`, `E` as INTEGER), `D` as OCTET
STRING of `D.Bytes()` (the bytes of the absolute value), and the
`SplitBy` INTEGER. -/
def marshalPrivateKeyShard (pks : PrivateKeyShard) : List ℕ :=
  derSeq (derSeq (derOctet (natBytes pks.PublicKey.N) ++ derInt pks.PublicKey.E)
    ++ derOctet (natBytes pks.D.natAbs) ++ derInt pks.SplitBy)

/-- `asn1.Marshal` of the earlier placeholder `splitPrivateKey`
(splitprivatekey source, lines 28-41), which has no scheme field. -/
def marshalSplitPrivateKey (spk : SplitPrivateKey) : List ℕ :=
  derSeq (derSeq (derOctet (natBytes spk.PublicKey.N) ++ derInt spk.PublicKey.E)
    ++ derOctet (natBytes spk.D.natAbs))

/-- The `encoding/asn1` tag-length-value scanner: check the tag, read
the length (rejecting indefinite lengths and long forms that should
have been short), and split off the content, returning the remaining
bytes. -/
def splitTLV (tag : ℕ) (bs : List ℕ) : Option (List ℕ × List ℕ) :=
  match bs with
  | [] => none
  | t :: rest =>
    if t ≠ tag then none
    else
      match rest with
      | [] => none
      | b :: rest2 =>
        if b < 128 then
          if rest2.length < b then none
          else some (rest2.take b, rest2.drop b)
        else
          let numBytes := b - 128
          if numBytes = 0 then none
          else if rest2.length < numBytes then none
          else
            let len := fromBytes (rest2.take numBytes)
            if len < 128 then none
            else if (rest2.drop numBytes).length < len then none
            else some ((rest2.drop numBytes).take len, (rest2.drop numBytes).drop len)

/-- The `encoding/asn1` INTEGER content parser: reject an empty body and
non-minimal encodings, then read the two's-complement value. -/
def parseDERInt (bs : List ℕ) : Option ℤ :=
  match bs with
  | [] => none
  | b0 :: _ =>
    if 2 ≤ bs.length ∧ ((b0 = 0 ∧ bs.getD 1 0 < 128) ∨ (b0 = 0xff ∧ 128 ≤ bs.getD 1 0)) then none
    else if 128 ≤ b0 then some ((fromBytes bs : ℤ) - 2 ^ (8 * bs.length))
    else some (fromBytes bs)

/-- `asn1.Unmarshal` into the `privateKeyShard` placeholder: parse the
outer SEQUENCE, then its fields in order, and return the parsed struct
together with the bytes remaining after the outer SEQUENCE.  (Inside a
SEQUENCE, bytes after the expected fields are tolerated, matching the
extensibility behavior of `encoding/asn1`; the encoder never emits
any.) -/
def unmarshalPrivateKeyShard (payload : List ℕ) : Option (PrivateKeyShard × List ℕ) :=
  match splitTLV 0x30 payload with
  | none => none
  | some (content, rest) =>
    match splitTLV 0x30 content with
    | none => none
    | some (pubContent, content2) =>
      match splitTLV 0x04 pubContent with
      | none => none
      | some (nBytes, pubRest) =>
        match splitTLV 0x02 pubRest with
        | none => none
        | some (eBytes, _) =>
          match parseDERInt eBytes with
          | none => none
          | some e =>
            match splitTLV 0x04 content2 with
            | none => none
            | some (dBytes, content3) =>
              match splitTLV 0x02 content3 with
              | none => none
              | some (sbBytes, _) =>
                match parseDERInt sbBytes with
                | none => none
                | some sb => some (⟨⟨fromBytes nBytes, e⟩, (fromBytes dBytes : ℤ), sb⟩, rest)

/-- `asn1.Unmarshal` into the earlier `splitPrivateKey` placeholder
(no scheme field). -/
def unmarshalSplitPrivateKey (payload : List ℕ) : Option (SplitPrivateKey × List ℕ) :=
  match splitTLV 0x30 payload with
  | none => none
  | some (content, rest) =>
    match splitTLV 0x30 content with
    | none => none
    | some (pubContent, content2) =>
      match splitTLV 0x04 pubContent with
      | none => none
      | some (nBytes, pubRest) =>
        match splitTLV 0x02 pubRest with
        | none => none
        | some (eBytes, _) =>
          match parseDERInt eBytes with
          | none => none
          | some e =>
            match splitTLV 0x04 content2 with
            | none => none
            | some (dBytes, _) =>
              some (⟨⟨fromBytes nBytes, e⟩, (fromBytes dBytes : ℤ)⟩, rest)

/-- Go `(*PrivateKeyShard).EncodePEM()` (mpcrsa test source, second
document, lines 138-163): DER-marshal the placeholder struct and wrap
it in a PEM block of type `"RSA SPLIT PRIVATE KEY"`.  Neither
`asn1.Marshal` of this fixed struct nor `pem.Encode` can fail, so the
result is the block itself. -/
def EncodePEM (pks : PrivateKeyShard) : PEMBlock :=
  ⟨pemType, marshalPrivateKeyShard pks⟩

/-- Go `DecodePEM(encodedPks)` (mpcrsa test source, second document,
lines 166-186).  The two arguments are the results of the stdlib
`pem.Decode` call on the input text: the first PEM block found (`none`
when the text contains no armor) and the data remaining after it.  The
code rejects a missing block, a wrong type, text after the armor, and a
DER payload that the unmarshaler does not consume entirely; an
unmarshal failure is returned to the caller as a non-nil error. -/
def DecodePEM (block : Option PEMBlock) (pemRest : List ℕ) : GoResult PrivateKeyShard :=
  match block with
  | none => .err "failed to decode PEM block containing private key shard"
  | some blk =>
    if blk.blockType ≠ pemType then .err "failed to decode PEM block containing private key shard"
    else if pemRest ≠ [] then .err "failed to decode PEM block containing private key shard"
    else
      match unmarshalPrivateKeyShard blk.blockBytes with
      | none => .err "asn1: syntax error"
      | some (pks, derRest) =>
        if derRest ≠ [] then .err "failed to unmarshal DER-encoded private key shard"
        else .ok pks

/-- The earlier `DecodePEM` (splitprivatekey source, lines 59-77): it
discards the remainder of `pem.Decode`, never inspects the remainder of
`asn1.Unmarshal` (the source comment asks "do I need to do anything
with rst?"), and returns the unmarshal error, if any, alongside the
decoded shard. -/
def decodePEMOld (block : Option PEMBlock) : GoResult SplitPrivateKey :=
  match block with
  | none => .err "failed to decode PEM block containing split private key"
  | some blk =>
    if blk.blockType ≠ pemType then .err "failed to decode PEM block containing split private key"
    else
      match unmarshalSplitPrivateKey blk.blockBytes with
      | none => .err "asn1: syntax error"
      | some (spk, _) => .ok spk

/-! Round-trip lemmas for the DER layer. -/

theorem fromBytes_cons_zero (bs : List ℕ) : fromBytes (0 :: bs) = fromBytes bs := by
  show List.foldl (fun a b => a * 256 + b) (0 * 256 + 0) bs = _
  simp [fromBytes]

theorem natBytes_ne_nil {n : ℕ} (hn : n ≠ 0) : natBytes n ≠ [] := by
  rw [natBytes_succ n hn]
  simp

theorem natBytes_head_ne_zero {n : ℕ} (hn : n ≠ 0) :
    ∀ {h : ℕ} {t : List ℕ}, natBytes n = h :: t → h ≠ 0 := by
  induction n using Nat.strong_induction_on with
  | _ n ih =>
    intro h t heq
    rw [natBytes_succ n hn] at heq
    rcases eq_or_ne (n / 256) 0 with hq | hq
    · rw [hq, natBytes_zero, List.nil_append] at heq
      injection heq with h1 h2
      have hlt : n < 256 := by omega
      rw [Nat.mod_eq_of_lt hlt] at h1
      omega
    · obtain ⟨h2, t2, heq2⟩ : ∃ h2 t2, natBytes (n / 256) = h2 :: t2 := by
        rcases hx : natBytes (n / 256) with - | ⟨h2, t2⟩
        · exact absurd hx (natBytes_ne_nil hq)
        · exact ⟨h2, t2, rfl⟩
      have hne : h2 ≠ 0 := by
        have := Nat.div_lt_self (Nat.pos_of_ne_zero hn) (show 1 < 256 by norm_num)
        exact ih (n / 256) this hq heq2
      rw [heq2, List.cons_append] at heq
      injection heq with h1 h3
      omega

theorem splitTLV_cons (tag b : ℕ) (rest2 : List ℕ) :
    splitTLV tag (tag :: b :: rest2) =
      (if b < 128 then
        if rest2.length < b then none
        else some (rest2.take b, rest2.drop b)
      else
        if b - 128 = 0 then none
        else if rest2.length < b - 128 then none
        else
          if fromBytes (rest2.take (b - 128)) < 128 then none
          else if (rest2.drop (b - 128)).length < fromBytes (rest2.take (b - 128)) then none
          else some ((rest2.drop (b - 128)).take (fromBytes (rest2.take (b - 128))),
            (rest2.drop (b - 128)).drop (fromBytes (rest2.take (b - 128))))) := by
  show (if tag ≠ tag then none else _) = _
  rw [if_neg (show ¬tag ≠ tag from fun h => h rfl)]

theorem splitTLV_round (tag : ℕ) (content extra : List ℕ) :
    splitTLV tag (derTLV tag content ++ extra) = some (content, extra) := by
  by_cases hlen : content.length < 128
  · have hshape : derTLV tag content ++ extra = tag :: content.length :: (content ++ extra) := by
      simp [derTLV, derLen, if_pos hlen]
    rw [hshape, splitTLV_cons, if_pos hlen]
    have hlen2 : ¬(content ++ extra).length < content.length := by
      simp [List.length_append]
    rw [if_neg hlen2]
    rw [List.take_left, List.drop_left]
  · have hL : 128 ≤ content.length := le_of_not_lt hlen
    have hnbne : natBytes content.length ≠ [] := natBytes_ne_nil (by omega)
    have hnbl : 1 ≤ (natBytes content.length).length := by
      rcases hx : natBytes content.length with - | ⟨a, b⟩
      · exact absurd hx hnbne
      · simp
    have hshape : derTLV tag content ++ extra =
        tag :: (128 + (natBytes content.length).length) ::
          (natBytes content.length ++ (content ++ extra)) := by
      simp [derTLV, derLen, if_neg hlen, List.append_assoc]
    rw [hshape, splitTLV_cons]
    rw [if_neg (by omega : ¬128 + (natBytes content.length).length < 128)]
    have hnum : 128 + (natBytes content.length).length - 128 = (natBytes content.length).length := by
      omega
    rw [hnum]
    rw [if_neg (by omega : ¬(natBytes content.length).length = 0)]
    have hlen3 : ¬(natBytes content.length ++ (content ++ extra)).length < (natBytes content.length).length := by
      simp [List.length_append]
    rw [if_neg hlen3]
    rw [List.take_left, List.drop_left]
    rw [fromBytes_natBytes]
    rw [if_neg (by omega : ¬content.length < 128)]
    have hlen4 : ¬(content ++ extra).length < content.length := by
      simp [List.length_append]
    rw [if_neg hlen4]
    rw [List.take_left, List.drop_left]

theorem splitTLV_exact (tag : ℕ) (content : List ℕ) :
    splitTLV tag (derTLV tag content) = some (content, []) := by
  have := splitTLV_round tag content []
  rwa [List.append_nil] at this

theorem parseDERInt_cons (b0 : ℕ) (rest : List ℕ) :
    parseDERInt (b0 :: rest) =
      if 2 ≤ (b0 :: rest).length ∧ ((b0 = 0 ∧ (b0 :: rest).getD 1 0 < 128) ∨
          (b0 = 0xff ∧ 128 ≤ (b0 :: rest).getD 1 0)) then none
      else if 128 ≤ b0 then some ((fromBytes (b0 :: rest) : ℤ) - 2 ^ (8 * (b0 :: rest).length))
      else some (fromBytes (b0 :: rest)) := rfl

theorem parseDERInt_derIntBytes {i : ℤ} (hi : 0 ≤ i) :
    parseDERInt (derIntBytes i) = some i := by
  rw [derIntBytes, if_pos hi]
  rcases eq_or_ne i 0 with rfl | hne
  · rw [show Int.toNat 0 = 0 from rfl, natBytes_zero]
    show parseDERInt [0] = some 0
    rw [parseDERInt_cons]
    norm_num [fromBytes]
  · have htn : i.toNat ≠ 0 := by omega
    obtain ⟨b, t, heq⟩ : ∃ b t, natBytes i.toNat = b :: t := by
      rcases hx : natBytes i.toNat with - | ⟨b, t⟩
      · exact absurd hx (natBytes_ne_nil htn)
      · exact ⟨b, t, rfl⟩
    have hbne : b ≠ 0 := natBytes_head_ne_zero htn heq
    have hval : fromBytes (b :: t) = i.toNat := by rw [← heq, fromBytes_natBytes]
    rw [heq]
    by_cases hb : 128 ≤ b
    · show parseDERInt (if 128 ≤ b then 0 :: b :: t else b :: t) = some i
      rw [if_pos hb, parseDERInt_cons]
      have hgd : (0 :: b :: t).getD 1 0 = b := rfl
      have hcond : ¬(2 ≤ (0 :: b :: t).length ∧ (((0:ℕ) = 0 ∧ (0 :: b :: t).getD 1 0 < 128) ∨
          ((0:ℕ) = 0xff ∧ 128 ≤ (0 :: b :: t).getD 1 0))) := by
        rintro ⟨-, ⟨-, h2⟩ | ⟨h255, -⟩⟩
        · rw [hgd] at h2
          omega
        · exact absurd h255 (by norm_num)
      rw [if_neg hcond]
      rw [if_neg (by norm_num : ¬(128:ℕ) ≤ 0)]
      rw [fromBytes_cons_zero, hval]
      congr 1
      omega
    · show parseDERInt (if 128 ≤ b then 0 :: b :: t else b :: t) = some i
      rw [if_neg hb, parseDERInt_cons]
      have hcond : ¬(2 ≤ (b :: t).length ∧ ((b = 0 ∧ (b :: t).getD 1 0 < 128) ∨
          (b = 0xff ∧ 128 ≤ (b :: t).getD 1 0))) := by
        rintro ⟨-, ⟨hb0, -⟩ | ⟨h255, -⟩⟩
        · exact hbne hb0
        · omega
      rw [if_neg hcond]
      rw [if_neg (by omega : ¬128 ≤ b)]
      rw [hval]
      congr 1
      omega


theorem unmarshalPrivateKeyShard_marshal (pks : PrivateKeyShard) (hE : 0 ≤ pks.PublicKey.E)
    (hSB : 0 ≤ pks.SplitBy) (extra : List ℕ) :
    unmarshalPrivateKeyShard (marshalPrivateKeyShard pks ++ extra) =
      some (⟨⟨pks.PublicKey.N, pks.PublicKey.E⟩, (pks.D.natAbs : ℤ), pks.SplitBy⟩, extra) := by
  simp only [marshalPrivateKeyShard, derSeq, derOctet, derInt, List.append_assoc,
    unmarshalPrivateKeyShard, splitTLV_round, splitTLV_exact,
    parseDERInt_derIntBytes hE, parseDERInt_derIntBytes hSB, fromBytes_natBytes]

theorem unmarshalSplitPrivateKey_marshal (spk : SplitPrivateKey) (hE : 0 ≤ spk.PublicKey.E)
    (extra : List ℕ) :
    unmarshalSplitPrivateKey (marshalSplitPrivateKey spk ++ extra) =
      some (⟨⟨spk.PublicKey.N, spk.PublicKey.E⟩, (spk.D.natAbs : ℤ)⟩, extra) := by
  simp only [marshalSplitPrivateKey, derSeq, derOctet, derInt, List.append_assoc,
    unmarshalSplitPrivateKey, splitTLV_round, splitTLV_exact,
    parseDERInt_derIntBytes hE, fromBytes_natBytes]

/-- The earlier codec silently accepts trailing DER bytes: whatever
non-empty junk follows a valid encoding, `DecodePEM` of the earlier
version still returns the shard with a nil error, because the remainder
returned by `asn1.Unmarshal` is discarded. -/
theorem decodePEMOld_ignores_trailing (spk : SplitPrivateKey) (hE : 0 ≤ spk.PublicKey.E)
    (hD : 0 ≤ spk.D) (extra : List ℕ) :
    decodePEMOld (some ⟨pemType, marshalSplitPrivateKey spk ++ extra⟩) = .ok spk := by
  obtain ⟨⟨N, E⟩, D⟩ := spk
  simp only [decodePEMOld]
  rw [if_neg (show ¬pemType ≠ pemType from fun h => h rfl)]
  rw [unmarshalSplitPrivateKey_marshal _ hE]
  simp only []
  congr 2
  exact Int.natAbs_of_nonneg hD

/-! Bit-length bounds, byte-string inverses, and the totient of a
squarefree modulus. -/

theorem bitLenAux_fuel {n : ℕ} : ∀ {f g : ℕ}, n ≤ f → n ≤ g → bitLenAux f n = bitLenAux g n := by
  induction n using Nat.strong_induction_on with
  | _ n ih =>
    intro f g hf hg
    match f, g with
    | 0, 0 => rfl
    | 0, g + 1 =>
      have hn : n = 0 := Nat.le_zero.mp hf
      subst hn
      simp [bitLenAux]
    | f + 1, 0 =>
      have hn : n = 0 := Nat.le_zero.mp hg
      subst hn
      simp [bitLenAux]
    | f + 1, g + 1 =>
      simp only [bitLenAux]
      rcases eq_or_ne n 0 with rfl | hn
      · simp
      · have hlt : n / 2 < n := Nat.div_lt_self (Nat.pos_of_ne_zero hn) (by norm_num)
        have h1 : n / 2 ≤ f := by omega
        have h2 : n / 2 ≤ g := by omega
        simp only [if_neg hn]
        rw [ih (n / 2) hlt h1 h2]

theorem bitLen_succ (n : ℕ) (hn : n ≠ 0) : bitLen n = bitLen (n / 2) + 1 := by
  have hlt : n / 2 < n := Nat.div_lt_self (Nat.pos_of_ne_zero hn) (by norm_num)
  rcases Nat.exists_eq_succ_of_ne_zero hn with ⟨m, rfl⟩
  show bitLenAux (m + 1) (m + 1) = _
  simp only [bitLenAux, if_neg hn]
  rw [bitLen, bitLenAux_fuel (Nat.le_of_lt_succ hlt) (le_refl _)]

theorem bitLen_zero : bitLen 0 = 0 := rfl

theorem lt_two_pow_bitLen (n : ℕ) : n < 2 ^ bitLen n := by
  induction n using Nat.strong_induction_on with
  | _ n ih =>
    rcases eq_or_ne n 0 with rfl | hn
    · simp [bitLen_zero]
    · rw [bitLen_succ n hn]
      have h := ih (n / 2) (Nat.div_lt_self (Nat.pos_of_ne_zero hn) (by norm_num))
      have : 2 ^ (bitLen (n / 2) + 1) = 2 * 2 ^ bitLen (n / 2) := by ring
      rw [this]
      omega

theorem two_pow_bitLen_pred_le {n : ℕ} (hn : n ≠ 0) : 2 ^ (bitLen n - 1) ≤ n := by
  induction n using Nat.strong_induction_on with
  | _ n ih =>
    rw [bitLen_succ n hn]
    rcases eq_or_ne (n / 2) 0 with hq | hq
    · rw [hq, bitLen_zero]
      simpa using Nat.pos_of_ne_zero hn
    · have h := ih (n / 2) (Nat.div_lt_self (Nat.pos_of_ne_zero hn) (by norm_num)) hq
      have hb1 : 1 ≤ bitLen (n / 2) := by
        rcases eq_or_ne (bitLen (n / 2)) 0 with h0 | h0
        · have := lt_two_pow_bitLen (n / 2)
          rw [h0] at this
          omega
        · omega
      have : 2 ^ (bitLen (n / 2) + 1 - 1) = 2 * 2 ^ (bitLen (n / 2) - 1) := by
        rw [Nat.add_sub_cancel]
        rcases Nat.exists_eq_succ_of_ne_zero (by omega : bitLen (n / 2) ≠ 0) with ⟨m, hm⟩
        rw [hm]
        simp [Nat.pow_succ]
        ring
      rw [this]
      omega

theorem lt_pow_modSize (n : ℕ) : n < 256 ^ modSize n := by
  have h1 := lt_two_pow_bitLen n
  have h2 : bitLen n ≤ 8 * modSize n := by
    rw [modSize]
    omega
  calc n < 2 ^ bitLen n := h1
    _ ≤ 2 ^ (8 * modSize n) := Nat.pow_le_pow_right (by norm_num) h2
    _ = 256 ^ modSize n := by rw [pow_mul]; norm_num

theorem pow_modSize_pred_le {n : ℕ} (hn : n ≠ 0) : 256 ^ (modSize n - 1) ≤ n := by
  have h1 := two_pow_bitLen_pred_le hn
  have hb1 : 1 ≤ bitLen n := by
    rcases eq_or_ne (bitLen n) 0 with h0 | h0
    · have := lt_two_pow_bitLen n
      rw [h0] at this
      omega
    · omega
  have h2 : 8 * (modSize n - 1) ≤ bitLen n - 1 := by
    rw [modSize]
    omega
  calc 256 ^ (modSize n - 1) = 2 ^ (8 * (modSize n - 1)) := by rw [pow_mul]; norm_num
    _ ≤ 2 ^ (bitLen n - 1) := Nat.pow_le_pow_right (by norm_num) h2
    _ ≤ n := h1

theorem natBytes_length_eq {v k : ℕ} (hk : 1 ≤ k) (h1 : 256 ^ (k - 1) ≤ v) (h2 : v < 256 ^ k) :
    (natBytes v).length = k := by
  have hle := natBytes_length_le h2
  by_contra hne
  have hlt : (natBytes v).length ≤ k - 1 := by omega
  have := natBytes_lt v
  have hmono : (256:ℕ) ^ (natBytes v).length ≤ 256 ^ (k - 1) :=
    Nat.pow_le_pow_right (by norm_num) hlt
  omega

theorem fromBytes_cons (h : ℕ) (t : List ℕ) :
    fromBytes (h :: t) = h * 256 ^ t.length + fromBytes t := by
  have : h :: t = [h] ++ t := rfl
  rw [this, fromBytes_append]
  congr 1
  show List.foldl (fun a b => a * 256 + b) 0 [h] * 256 ^ t.length = h * 256 ^ t.length
  simp

theorem fromBytes_lt {bs : List ℕ} (hb : ∀ b ∈ bs, b < 256) :
    fromBytes bs < 256 ^ bs.length := by
  induction bs with
  | nil => simp [fromBytes]
  | cons h t ih =>
    rw [fromBytes_cons, List.length_cons]
    have hh : h < 256 := hb h (List.mem_cons_self h t)
    have ht : fromBytes t < 256 ^ t.length := ih fun b hbmem => hb b (List.mem_cons_of_mem h hbmem)
    calc h * 256 ^ t.length + fromBytes t < h * 256 ^ t.length + 256 ^ t.length := by omega
      _ = (h + 1) * 256 ^ t.length := by ring
      _ ≤ 256 * 256 ^ t.length := Nat.mul_le_mul_right _ (by omega)
      _ = 256 ^ (t.length + 1) := by ring

theorem natBytes_fromBytes : ∀ (bs : List ℕ), (∀ b ∈ bs, b < 256) →
    (∀ h t, bs = h :: t → h ≠ 0) → natBytes (fromBytes bs) = bs := by
  intro bs
  induction bs using List.reverseRecOn with
  | nil =>
    intro _ _
    rfl
  | append_singleton xs b ih =>
    intro hb hh
    rw [fromBytes_append]
    have hbb : b < 256 := hb b (by simp)
    match xs, hh with
    | [], hh =>
      have hbne : b ≠ 0 := hh b [] rfl
      show natBytes (0 * 256 ^ _ + fromBytes [b]) = [b]
      have : fromBytes [b] = b := by simp [fromBytes]
      rw [this]
      simp only [Nat.zero_mul, Nat.zero_add]
      rw [natBytes_succ b hbne, Nat.div_eq_of_lt hbb, natBytes_zero, Nat.mod_eq_of_lt hbb,
        List.nil_append]
    | x :: t, hh =>
      have hxne : x ≠ 0 := hh x (t ++ [b]) rfl
      have hpos : 0 < fromBytes (x :: t) := by
        rw [fromBytes_cons]
        have : 0 < 256 ^ t.length := Nat.pos_pow_of_pos _ (by norm_num)
        have : 1 * 256 ^ t.length ≤ x * 256 ^ t.length :=
          Nat.mul_le_mul_right _ (Nat.one_le_iff_ne_zero.mpr hxne)
        omega
      have hlen1 : (List.length [b]) = 1 := rfl
      have hval : fromBytes (x :: t) * 256 ^ (List.length [b]) + fromBytes [b] =
          fromBytes (x :: t) * 256 + b := by
        simp [fromBytes]
      rw [hlen1]
      have hfb : fromBytes [b] = b := by simp [fromBytes]
      rw [hfb, pow_one]
      have hvne : fromBytes (x :: t) * 256 + b ≠ 0 := by positivity
      rw [natBytes_succ _ hvne]
      have hdiv : (fromBytes (x :: t) * 256 + b) / 256 = fromBytes (x :: t) := by omega
      have hmod : (fromBytes (x :: t) * 256 + b) % 256 = b := by omega
      rw [hdiv, hmod]
      rw [ih (fun y hy => hb y (List.mem_append_left _ hy)) (fun h2 t2 heq => by
        injection heq with h1 h3
        rw [← h1]
        exact hxne)]

theorem coprime_list_prod {p : ℕ} {l : List ℕ} (h : ∀ q ∈ l, Nat.Coprime p q) :
    Nat.Coprime p l.prod := by
  induction l with
  | nil => simp [Nat.coprime_one_right]
  | cons q l ih =>
    rw [List.prod_cons]
    exact Nat.Coprime.mul_right (h q (List.mem_cons_self q l))
      (ih fun r hr => h r (List.mem_cons_of_mem q hr))

/-- The Euler totient of a product of pairwise-distinct primes is the
product of `p - 1`: this is what makes the code's
`eulerTotient(priv.Primes)` the group order used in the congruence
invariants, for ordinary and multi-prime RSA keys alike. -/
theorem totient_distinct_primes : ∀ (ps : List ℕ), (∀ p ∈ ps, Nat.Prime p) →
    ps.Pairwise (fun a b => a ≠ b) → Nat.totient ps.prod = (ps.map (· - 1)).prod := by
  intro ps
  induction ps with
  | nil => simp
  | cons p ps ih =>
    intro hp hpw
    rw [List.pairwise_cons] at hpw
    have hcop : Nat.Coprime p ps.prod :=
      coprime_list_prod fun q hq =>
        (Nat.coprime_primes (hp p (List.mem_cons_self p ps)) (hp q (List.mem_cons_of_mem p hq))).mpr
          (hpw.1 q hq)
    rw [List.prod_cons, List.map_cons, List.prod_cons,
      Nat.totient_mul hcop, Nat.totient_prime (hp p (List.mem_cons_self p ps)),
      ih (fun q hq => hp q (List.mem_cons_of_mem p hq)) hpw.2]

/-- Powers with congruent exponents agree for a group element killed by
`phi`. -/
theorem zpow_congr_of_pow_eq_one {G : Type} [Group G] [Fintype G] {u : G} {phi : ℕ}
    (hpow : u ^ phi = 1) {a b : ℤ} (hmod : a ≡ b [ZMOD (phi : ℤ)]) : u ^ a = u ^ b := by
  have hdvd : ((orderOf u : ℕ) : ℤ) ∣ ((phi : ℕ) : ℤ) :=
    Int.natCast_dvd_natCast.mpr (orderOf_dvd_of_pow_eq_one hpow)
  exact zpow_eq_zpow_iff_modEq.mpr (hmod.of_dvd hdvd)

/-- The canonical value in `[0, n)` of `x ^ y` computed in the unit
group of `ZMod n`: the integer every signing step manipulates. -/
def unitPowVal (n x : ℕ) (hx : Nat.Coprime x n) (y : ℤ) : ℕ :=
  (((ZMod.unitOfCoprime x hx : (ZMod n)ˣ) ^ y : (ZMod n)ˣ) : ZMod n).val

theorem goExp_unitPowVal {n : ℕ} (hn : 1 < n) {x : ℕ} (hx : Nat.Coprime x n) (y : ℤ) :
    goExp x y n = some (unitPowVal n x hx y) := goExp_unit hn hx y

theorem unitPowVal_lt {n : ℕ} (hn : 1 < n) {x : ℕ} (hx : Nat.Coprime x n) (y : ℤ) :
    unitPowVal n x hx y < n := by
  have : NeZero n := ⟨by omega⟩
  exact ZMod.val_lt _

theorem unitPowVal_coprime {n : ℕ} {x : ℕ} (hx : Nat.Coprime x n) (y : ℤ) :
    Nat.Coprime (unitPowVal n x hx y) n :=
  ZMod.val_coe_unit_coprime _

theorem unitPowVal_natCast {n : ℕ} (hn : 1 < n) {x : ℕ} (hx : Nat.Coprime x n) (t : ℕ) :
    unitPowVal n x hx (t : ℤ) = x ^ t % n := by
  have : NeZero n := ⟨by omega⟩
  rw [unitPowVal, zpow_natCast, ← ZMod.val_natCast]
  congr 1
  rw [Nat.cast_pow, Units.val_pow_eq_pow_val, ZMod.coe_unitOfCoprime]

theorem unitOfCoprime_unitPowVal {n : ℕ} (hn : 1 < n) {x : ℕ} (hx : Nat.Coprime x n) (y : ℤ) :
    ZMod.unitOfCoprime (unitPowVal n x hx y) (unitPowVal_coprime hx y) =
      (ZMod.unitOfCoprime x hx : (ZMod n)ˣ) ^ y := by
  have : NeZero n := ⟨by omega⟩
  apply Units.ext
  rw [ZMod.coe_unitOfCoprime, unitPowVal, ZMod.natCast_val, ZMod.cast_id]

/-! Evaluation lemmas for the signing pipeline: under the PKCS#1 v1.5
well-formedness conditions, each call is a concrete unit-group power. -/

/-- The integer value of the encoded message block. -/
def emInt (k tLen : ℕ) (pfx hashed : List ℕ) : ℕ := fromBytes (emBytes k tLen pfx hashed)

theorem pkcs1v15HashInfo_length {hash inLen hashLen : ℕ} {pfx : List ℕ}
    (h : pkcs1v15HashInfo hash inLen = .ok (hashLen, pfx)) : inLen = hashLen := by
  rw [pkcs1v15HashInfo] at h
  split at h
  · injection h with h1
    injection h1 with h2 h3
  · split at h
    · cases h
    · split at h
      · cases h
      · split at h
        · cases h
        · injection h with h1
          injection h1 with h2 h3
          omega

theorem hashPrefixTable_bound {h : ℕ} {pfx : List ℕ} (hpt : hashPrefixTable h = some pfx) :
    ∀ b ∈ pfx, b < 256 := by
  unfold hashPrefixTable at hpt
  split at hpt <;> first
    | (injection hpt with he; rw [← he]; decide)
    | (cases hpt)

theorem pkcs1v15HashInfo_pfx_bound {hash inLen hashLen : ℕ} {pfx : List ℕ}
    (h : pkcs1v15HashInfo hash inLen = .ok (hashLen, pfx)) : ∀ b ∈ pfx, b < 256 := by
  rw [pkcs1v15HashInfo] at h
  split at h
  · injection h with h1
    injection h1 with h2 h3
    rw [← h3]
    simp
  · split at h
    · cases h
    · split at h
      · cases h
      · rcases hpt : hashPrefixTable hash with - | pl
        · rw [hpt] at h
          cases h
        · rw [hpt] at h
          injection h with h1
          injection h1 with h2 h3
          rw [← h3]
          exact hashPrefixTable_bound hpt

theorem SignFirst_eq (random : RandomSource) (pub : PublicKey) (dd : ℤ) (hashFn : ℕ)
    (hashed : List ℕ) {hashLen : ℕ} {pfx : List ℕ} {x : ℕ}
    (hinfo : pkcs1v15HashInfo hashFn hashed.length = .ok (hashLen, pfx))
    (hk : pfx.length + hashLen + 11 ≤ modSize pub.N)
    (hn : 1 < pub.N)
    (hxeq : emInt (modSize pub.N) (pfx.length + hashLen) pfx hashed = x)
    (hlt : x < pub.N)
    (hx : Nat.Coprime x pub.N) :
    SignFirst random ⟨pub, dd⟩ hashFn hashed =
      .ok (fillBytes (unitPowVal pub.N x hx dd) (modSize pub.N)) := by
  rw [SignFirst]
  simp only [signPKCS1v15, hinfo]
  rw [if_neg (by omega : ¬modSize pub.N < pfx.length + hashLen + 11)]
  have hm : fromBytes (emBytes (modSize pub.N) (pfx.length + hashLen) pfx hashed) = x := hxeq
  simp only [decrypt, hm]
  rw [if_neg (by omega : ¬pub.N < x), if_neg (by omega : ¬pub.N = 0)]
  rw [goExp_unitPowVal hn hx]

theorem SignNext_additive_eq (random : RandomSource) (pub : PublicKey) (dd : ℤ) (hashFn : ℕ)
    (hashed : List ℕ) {hashLen : ℕ} {pfx : List ℕ} {x : ℕ}
    (hinfo : pkcs1v15HashInfo hashFn hashed.length = .ok (hashLen, pfx))
    (hk : pfx.length + hashLen + 11 ≤ modSize pub.N)
    (hn : 1 < pub.N)
    (hxeq : emInt (modSize pub.N) (pfx.length + hashLen) pfx hashed = x)
    (hlt : x < pub.N)
    (hx : Nat.Coprime x pub.N)
    (bs : List ℕ) :
    SignNext random ⟨pub, dd⟩ hashFn hashed Addition bs =
      .ok (natBytes (unitPowVal pub.N x hx dd * fromBytes bs % pub.N)) := by
  simp only [SignNext]
  rw [if_neg (by decide : ¬Addition = Multiplication), if_true]
  rw [SignFirst_eq random pub dd hashFn hashed hinfo hk hn hxeq hlt hx]
  simp only [fromBytes_fillBytes]

theorem SignNext_mult_eq (random : RandomSource) (pub : PublicKey) (dd : ℤ) (hashFn : ℕ)
    (hashed : List ℕ) (hn : 1 < pub.N) {x : ℕ} (hx : Nat.Coprime x pub.N) (t : ℤ)
    (bs : List ℕ) (hbs : fromBytes bs = unitPowVal pub.N x hx t) :
    SignNext random ⟨pub, dd⟩ hashFn hashed Multiplication bs =
      .ok (natBytes (unitPowVal pub.N x hx (t * dd))) := by
  simp only [SignNext]
  rw [if_true, hbs]
  rw [goExp_unitPowVal hn (unitPowVal_coprime hx t)]
  have hv : unitPowVal pub.N (unitPowVal pub.N x hx t) (unitPowVal_coprime hx t) dd =
      unitPowVal pub.N x hx (t * dd) := by
    show ((ZMod.unitOfCoprime (unitPowVal pub.N x hx t) (unitPowVal_coprime hx t) ^ dd :
      (ZMod pub.N)ˣ) : ZMod pub.N).val = _
    rw [unitOfCoprime_unitPowVal hn hx t, ← zpow_mul]
    rfl
  rw [hv]

theorem val_mul_step {n : ℕ} (hn : 1 < n) {x : ℕ} (hx : Nat.Coprime x n) (a b : ℤ) :
    unitPowVal n x hx a * unitPowVal n x hx b % n = unitPowVal n x hx (a + b) := by
  have : NeZero n := ⟨by omega⟩
  rw [unitPowVal, unitPowVal, unitPowVal, zpow_add]
  rw [Units.val_mul, ZMod.val_mul]

theorem foldNext_additive (random : RandomSource) (pub : PublicKey) (hashFn : ℕ)
    (hashed : List ℕ) {hashLen : ℕ} {pfx : List ℕ} {x : ℕ}
    (hinfo : pkcs1v15HashInfo hashFn hashed.length = .ok (hashLen, pfx))
    (hk : pfx.length + hashLen + 11 ≤ modSize pub.N)
    (hn : 1 < pub.N)
    (hxeq : emInt (modSize pub.N) (pfx.length + hashLen) pfx hashed = x)
    (hlt : x < pub.N)
    (hx : Nat.Coprime x pub.N) :
    ∀ (rs : List ℤ) (t : ℤ) (bs : List ℕ), fromBytes bs = unitPowVal pub.N x hx t → rs ≠ [] →
      List.foldl (fun acc s => GoResult.bind acc fun sig => SignNext random s hashFn hashed Addition sig)
        (GoResult.ok bs) (rs.map fun di => (⟨pub, di⟩ : SplitPrivateKey)) =
        .ok (natBytes (unitPowVal pub.N x hx (t + rs.sum))) := by
  intro rs
  induction rs with
  | nil =>
    intro t bs hbs hne
    exact absurd rfl hne
  | cons r rs ih =>
    intro t bs hbs hne
    simp only [List.map_cons, List.foldl_cons, GoResult.bind_ok]
    rw [SignNext_additive_eq random pub r hashFn hashed hinfo hk hn hxeq hlt hx bs]
    rw [hbs, val_mul_step hn hx r t]
    rcases eq_or_ne rs [] with rfl | hrs
    · rw [List.map_nil, List.foldl_nil]
      rw [show r + t = t + List.sum [r] by simp; ring]
    · rw [ih (r + t) (natBytes (unitPowVal pub.N x hx (r + t))) (fromBytes_natBytes _) hrs]
      rw [show r + t + rs.sum = t + (r :: rs).sum by rw [List.sum_cons]; ring]

theorem foldNext_mult (random : RandomSource) (pub : PublicKey) (hashFn : ℕ)
    (hashed : List ℕ) (hn : 1 < pub.N) {x : ℕ} (hx : Nat.Coprime x pub.N) :
    ∀ (rs : List ℤ) (t : ℤ) (bs : List ℕ), fromBytes bs = unitPowVal pub.N x hx t → rs ≠ [] →
      List.foldl (fun acc s => GoResult.bind acc fun sig => SignNext random s hashFn hashed Multiplication sig)
        (GoResult.ok bs) (rs.map fun di => (⟨pub, di⟩ : SplitPrivateKey)) =
        .ok (natBytes (unitPowVal pub.N x hx (t * rs.prod))) := by
  intro rs
  induction rs with
  | nil =>
    intro t bs hbs hne
    exact absurd rfl hne
  | cons r rs ih =>
    intro t bs hbs hne
    simp only [List.map_cons, List.foldl_cons, GoResult.bind_ok]
    rw [SignNext_mult_eq random pub r hashFn hashed hn hx t bs hbs]
    rcases eq_or_ne rs [] with rfl | hrs
    · rw [List.map_nil, List.foldl_nil]
      rw [show t * r = t * List.prod [r] by simp]
    · rw [ih (t * r) (natBytes (unitPowVal pub.N x hx (t * r))) (fromBytes_natBytes _) hrs]
      rw [show t * r * rs.prod = t * (r :: rs).prod by rw [List.prod_cons]; ring]

theorem signChain_additive_eq (random : RandomSource) (pub : PublicKey) (hashFn : ℕ)
    (hashed : List ℕ) {hashLen : ℕ} {pfx : List ℕ} {x : ℕ}
    (hinfo : pkcs1v15HashInfo hashFn hashed.length = .ok (hashLen, pfx))
    (hk : pfx.length + hashLen + 11 ≤ modSize pub.N)
    (hn : 1 < pub.N)
    (hxeq : emInt (modSize pub.N) (pfx.length + hashLen) pfx hashed = x)
    (hlt : x < pub.N)
    (hx : Nat.Coprime x pub.N)
    (d0 : ℤ) (rest : List ℤ) (hrest : rest ≠ []) :
    signChain random ((d0 :: rest).map fun di => (⟨pub, di⟩ : SplitPrivateKey)) hashFn hashed Addition =
      .ok (natBytes (unitPowVal pub.N x hx (d0 + rest.sum))) := by
  rw [List.map_cons, signChain]
  rw [SignFirst_eq random pub d0 hashFn hashed hinfo hk hn hxeq hlt hx]
  exact foldNext_additive random pub hashFn hashed hinfo hk hn hxeq hlt hx rest d0 _
    (fromBytes_fillBytes _ _) hrest

theorem signChain_mult_eq (random : RandomSource) (pub : PublicKey) (hashFn : ℕ)
    (hashed : List ℕ) {hashLen : ℕ} {pfx : List ℕ} {x : ℕ}
    (hinfo : pkcs1v15HashInfo hashFn hashed.length = .ok (hashLen, pfx))
    (hk : pfx.length + hashLen + 11 ≤ modSize pub.N)
    (hn : 1 < pub.N)
    (hxeq : emInt (modSize pub.N) (pfx.length + hashLen) pfx hashed = x)
    (hlt : x < pub.N)
    (hx : Nat.Coprime x pub.N)
    (d0 : ℤ) (rest : List ℤ) (hrest : rest ≠ []) :
    signChain random ((d0 :: rest).map fun di => (⟨pub, di⟩ : SplitPrivateKey)) hashFn hashed Multiplication =
      .ok (natBytes (unitPowVal pub.N x hx (d0 * rest.prod))) := by
  rw [List.map_cons, signChain]
  rw [SignFirst_eq random pub d0 hashFn hashed hinfo hk hn hxeq hlt hx]
  exact foldNext_mult random pub hashFn hashed hn hx rest d0 _
    (fromBytes_fillBytes _ _) hrest

theorem getD_append_length (l1 l2 : List ℕ) (a d : ℕ) :
    (l1 ++ a :: l2).getD l1.length d = a := by
  induction l1 with
  | nil => rfl
  | cons h t ih =>
    show (h :: (t ++ a :: l2)).getD (t.length + 1) d = a
    rw [List.getD_cons_succ]
    exact ih

/-- The local PKCS#1 v1.5 verifier accepts a full-length signature whose
`E`-th power modulo `N` recovers the encoded message. -/
theorem verify_accepts (pub : PublicKey) (hashFn : ℕ) (hashed : List ℕ)
    {hashLen : ℕ} {pfx : List ℕ} {x : ℕ}
    (hinfo : pkcs1v15HashInfo hashFn hashed.length = .ok (hashLen, pfx))
    (hk : pfx.length + hashLen + 11 ≤ modSize pub.N)
    (hxeq : emInt (modSize pub.N) (pfx.length + hashLen) pfx hashed = x)
    (hlt : x < pub.N)
    (hbytes : ∀ b ∈ hashed, b < 256)
    (hE0 : 0 ≤ pub.E)
    (v : ℕ)
    (hvlt : v < pub.N)
    (hfull : 256 ^ (modSize pub.N - 1) ≤ v)
    (henc : v ^ (pub.E).toNat % pub.N = x % pub.N) :
    verifyPKCS1v15 pub hashFn hashed (natBytes v) = .ok () := by
  have hlen : hashed.length = hashLen := pkcs1v15HashInfo_length hinfo
  have hpfxb : ∀ b ∈ pfx, b < 256 := pkcs1v15HashInfo_pfx_bound hinfo
  set k := modSize pub.N with hkdef
  set tLen := pfx.length + hashLen with htdef
  have hk1 : 1 ≤ k := by omega
  have hvk : v < 256 ^ k := lt_of_lt_of_le hvlt (le_of_lt (lt_pow_modSize pub.N))
  have hsiglen : (natBytes v).length = k := natBytes_length_eq hk1 hfull hvk
  simp only [verifyPKCS1v15, hinfo]
  rw [if_neg (by omega : ¬k < tLen + 11)]
  rw [if_neg (by omega : ¬k ≠ (natBytes v).length)]
  rw [fromBytes_natBytes]
  -- the public exponentiation recovers the encoded message integer
  have hencx : encrypt pub v = x := by
    rw [encrypt, goExp, if_pos hE0]
    show powModNat v (pub.E).toNat pub.N = x
    rw [powModNat_eq, henc, Nat.mod_eq_of_lt hlt]
  rw [hencx]
  -- the padded block is exactly the EM block built at signing time
  set L := k - tLen - 3 with hLdef
  set rest := 1 :: (List.replicate L 0xff ++ (0 :: (pfx ++ hashed))) with hrest
  have hem : emBytes k tLen pfx hashed = 0 :: rest := rfl
  have hxfrom : x = fromBytes rest := by
    rw [← hxeq, emInt, hem, fromBytes_cons_zero]
  have hrestlen : rest.length = k - 1 := by
    rw [hrest]
    simp only [List.length_cons, List.length_append, List.length_replicate]
    omega
  have hnbx : natBytes x = rest := by
    rw [hxfrom]
    apply natBytes_fromBytes
    · intro b hb
      rw [hrest] at hb
      simp only [List.mem_cons, List.mem_append] at hb
      rcases hb with rfl | hb | rfl | hb | hb
      · omega
      · rw [List.eq_of_mem_replicate hb]
        omega
      · omega
      · exact hpfxb b hb
      · exact hbytes b hb
    · intro h t heq
      rw [hrest] at heq
      injection heq with h1 h2
      omega
  have hfillx : fillBytes x k = 0 :: rest := by
    rw [fillBytes, hnbx, hrestlen]
    have : k - (k - 1) = 1 := by omega
    rw [this]
    rfl
  rw [hfillx, ← hem]
  -- each field of the padded block checks out
  have hLlen : tLen - hashLen = pfx.length := by omega
  have c1 : (emBytes k tLen pfx hashed).getD 0 0 = 0 := rfl
  have c2 : (emBytes k tLen pfx hashed).getD 1 0 = 1 := rfl
  have hsplit1 : emBytes k tLen pfx hashed =
      (0 :: 1 :: (List.replicate L 0xff ++ (0 :: pfx))) ++ hashed := by
    rw [emBytes]
    simp only [List.cons_append, List.append_assoc]
  have hfront1 : (0 :: 1 :: (List.replicate L 0xff ++ (0 :: pfx))).length = k - hashLen := by
    simp only [List.length_cons, List.length_append, List.length_replicate]
    omega
  have c3 : ((emBytes k tLen pfx hashed).drop (k - hashLen)).take hashLen = hashed := by
    rw [hsplit1, ← hfront1, List.drop_left, ← hlen, List.take_length]
  have hsplit2 : emBytes k tLen pfx hashed =
      (0 :: 1 :: (List.replicate L 0xff ++ [0])) ++ (pfx ++ hashed) := by
    rw [emBytes]
    simp only [List.cons_append, List.append_assoc, List.nil_append]
  have hfront2 : (0 :: 1 :: (List.replicate L 0xff ++ [0])).length = k - tLen := by
    simp only [List.length_cons, List.length_append, List.length_replicate, List.length_nil]
    omega
  have c4 : ((emBytes k tLen pfx hashed).drop (k - tLen)).take (tLen - hashLen) = pfx := by
    rw [hsplit2, ← hfront2, List.drop_left, hLlen, List.take_left]
  have hsplit3 : emBytes k tLen pfx hashed =
      (0 :: 1 :: List.replicate L 0xff) ++ (0 :: (pfx ++ hashed)) := by
    rw [emBytes]
    simp only [List.cons_append, List.append_assoc]
  have hfront3 : (0 :: 1 :: List.replicate L 0xff).length = k - tLen - 1 := by
    simp only [List.length_cons, List.length_replicate]
    omega
  have c5 : (emBytes k tLen pfx hashed).getD (k - tLen - 1) 0 = 0 := by
    rw [hsplit3, ← hfront3, getD_append_length]
  have hdrop2 : (emBytes k tLen pfx hashed).drop 2 =
      List.replicate L 0xff ++ (0 :: (pfx ++ hashed)) := rfl
  have c6 : (((emBytes k tLen pfx hashed).drop 2).take (k - tLen - 3)).all
      (fun b => b = 0xff) = true := by
    have htake : List.take L (List.replicate L (0xff:ℕ) ++ (0 :: (pfx ++ hashed))) =
        List.replicate L 0xff := by
      have h := List.take_left (List.replicate L (0xff:ℕ)) (0 :: (pfx ++ hashed))
      rwa [List.length_replicate] at h
    rw [hdrop2, ← hLdef, htake]
    simp only [List.all_eq_true, decide_eq_true_eq]
    intro b hb
    exact List.eq_of_mem_replicate hb
  rw [if_pos ⟨c1, c2, c3, c4, c5, c6⟩]

theorem eulerTotient_some {ps : List ℕ} {phi : ℕ} (h : eulerTotient ps = some phi) :
    phi = (ps.map (· - 1)).prod ∧ 2 ≤ ps.length := by
  match ps with
  | [] => cases h
  | [p] => cases h
  | p0 :: p1 :: rest =>
    rw [eulerTotient] at h
    injection h with h1
    constructor
    · rw [← h1, foldl_totient]
      simp only [List.map_cons, List.prod_cons]
      ring
    · simp only [List.length_cons]
      omega

theorem SplitDRel_ok {priv : PrivateKey} {k : ℕ} {sb : SplitBy} {shards : List SplitPrivateKey}
    (h : SplitDRel priv k sb (.ok shards)) :
    2 ≤ k ∧ ∃ phi, eulerTotient priv.Primes = some phi ∧
      ((sb = Multiplication ∧ ∃ ds, shards = ds.map (fun di => (⟨priv.PublicKey, di⟩ : SplitPrivateKey)) ∧
          splitMultiplicativeRel (phi : ℤ) priv.D k ds) ∨
       (sb = Addition ∧ ∃ ds, shards = ds.map (fun di => (⟨priv.PublicKey, di⟩ : SplitPrivateKey)) ∧
          splitAdditiveRel priv.D (phi : ℤ) k ds)) := by
  rw [SplitDRel] at h
  by_cases hk2 : k < 2
  · rw [if_pos hk2] at h
    cases h
  · rw [if_neg hk2] at h
    rcases he : eulerTotient priv.Primes with - | phi
    · rw [he] at h
      cases h
    · rw [he] at h
      simp only [] at h
      refine ⟨by omega, phi, rfl, ?_⟩
      by_cases hm : sb = Multiplication
      · rw [if_pos hm] at h
        obtain ⟨ds, hds, hrel⟩ := h
        injection hds with hds
        exact Or.inl ⟨hm, ds, hds, hrel⟩
      · rw [if_neg hm] at h
        by_cases ha : sb = Addition
        · rw [if_pos ha] at h
          obtain ⟨ds, hds, hrel⟩ := h
          injection hds with hds
          exact Or.inr ⟨ha, ds, hds, hrel⟩
        · rw [if_neg ha] at h
          cases h

theorem val_pow_mod {n : ℕ} (hn : 1 < n) (a : ZMod n) (t : ℕ) :
    (a ^ t).val = a.val ^ t % n := by
  have : NeZero n := ⟨by omega⟩
  have ha : ((a.val : ℕ) : ZMod n) = a := by rw [ZMod.natCast_val, ZMod.cast_id]
  calc (a ^ t).val = ((((a.val : ℕ) : ZMod n)) ^ t).val := by rw [ha]
    _ = (((a.val ^ t : ℕ) : ZMod n)).val := by rw [Nat.cast_pow]
    _ = a.val ^ t % n := ZMod.val_natCast _

theorem unitPowVal_eq_of_zpow_eq {n x : ℕ} (hx : Nat.Coprime x n) {a b : ℤ}
    (h : (ZMod.unitOfCoprime x hx : (ZMod n)ˣ) ^ a = ZMod.unitOfCoprime x hx ^ b) :
    unitPowVal n x hx a = unitPowVal n x hx b := by
  unfold unitPowVal
  rw [h]

/-- The master correctness statement behind the sequential-flow claims:
for a valid (possibly multi-prime) RSA key, a PKCS#1-v1.5-well-formed
message whose encoded block is coprime to the modulus, and any
successful split under either scheme, the sequential chain succeeds and
its final integer is `EM ^ d mod N`; whenever the minimal big-endian
encoding of that integer is full-length, the verifier accepts it. -/
theorem chain_correct (random : RandomSource) (priv : PrivateKey) (k : ℕ) (sb : SplitBy)
    (shards : List SplitPrivateKey) (hashFn : ℕ) (hashed : List ℕ)
    {hashLen : ℕ} {pfx : List ℕ}
    (hprimes : ∀ p ∈ priv.Primes, Nat.Prime p)
    (hdistinct : priv.Primes.Pairwise (fun a b => a ≠ b))
    (hN : priv.PublicKey.N = priv.Primes.prod)
    (hn : 1 < priv.PublicKey.N)
    (hd0 : 0 ≤ priv.D)
    (hE0 : 0 ≤ priv.PublicKey.E)
    (hed : priv.PublicKey.E * priv.D ≡ 1 [ZMOD (((priv.Primes.map (· - 1)).prod : ℕ) : ℤ)])
    (hinfo : pkcs1v15HashInfo hashFn hashed.length = .ok (hashLen, pfx))
    (hk : pfx.length + hashLen + 11 ≤ modSize priv.PublicKey.N)
    (hbytes : ∀ b ∈ hashed, b < 256)
    (hlt : emInt (modSize priv.PublicKey.N) (pfx.length + hashLen) pfx hashed < priv.PublicKey.N)
    (hx : Nat.Coprime (emInt (modSize priv.PublicKey.N) (pfx.length + hashLen) pfx hashed)
      priv.PublicKey.N)
    (hsplit : SplitDRel priv k sb (.ok shards)) :
    signChain random shards hashFn hashed sb =
      .ok (natBytes (emInt (modSize priv.PublicKey.N) (pfx.length + hashLen) pfx hashed
        ^ priv.D.toNat % priv.PublicKey.N)) ∧
    (256 ^ (modSize priv.PublicKey.N - 1) ≤
        emInt (modSize priv.PublicKey.N) (pfx.length + hashLen) pfx hashed
          ^ priv.D.toNat % priv.PublicKey.N →
      verifyPKCS1v15 priv.PublicKey hashFn hashed
        (natBytes (emInt (modSize priv.PublicKey.N) (pfx.length + hashLen) pfx hashed
          ^ priv.D.toNat % priv.PublicKey.N)) = .ok ()) := by
  set n := priv.PublicKey.N with hndef
  set m := emInt (modSize priv.PublicKey.N) (pfx.length + hashLen) pfx hashed with hmdef
  have hNeZero : NeZero n := ⟨by omega⟩
  set u : (ZMod n)ˣ := ZMod.unitOfCoprime m hx with hudef
  obtain ⟨hk2, phi, hphi, hcase⟩ := SplitDRel_ok hsplit
  obtain ⟨hphiprod, hplen⟩ := eulerTotient_some hphi
  -- `phi` is the Euler totient of the squarefree modulus, so it kills `u`
  have htot : Nat.totient n = phi := by
    rw [hN, totient_distinct_primes priv.Primes hprimes hdistinct, hphiprod]
  have hupow : u ^ phi = 1 := by
    rw [← htot]
    exact ZMod.pow_totient u
  -- the final chain value is `u ^ priv.D`
  have hDnat : priv.D = ((priv.D.toNat : ℕ) : ℤ) := by omega
  have hfinal : unitPowVal n m hx priv.D = m ^ priv.D.toNat % n := by
    conv_lhs => rw [hDnat]
    exact unitPowVal_natCast hn hx priv.D.toNat
  have hchain : signChain random shards hashFn hashed sb =
      .ok (natBytes (unitPowVal n m hx priv.D)) := by
    rcases hcase with ⟨hsb, ds, hshards, hrel⟩ | ⟨hsb, ds, hshards, hrel⟩
    · -- Multiplication
      have hlen : ds.length = k := splitMultiplicativeRel_length hrel
      obtain ⟨d0, d1, rest, rfl⟩ : ∃ d0 d1 rest, ds = d0 :: d1 :: rest := by
        match ds, hlen with
        | dx :: dy :: rest, _ => exact ⟨dx, dy, rest, rfl⟩
        | [], hlen =>
          simp at hlen
          omega
        | [dx], hlen =>
          simp at hlen
          omega
      have hprod : (d0 :: d1 :: rest).prod % (phi : ℤ) = priv.D % (phi : ℤ) :=
        splitMultiplicativeRel_prod hrel
      rw [hshards, hsb]
      rw [signChain_mult_eq random priv.PublicKey hashFn hashed hinfo hk hn rfl hlt hx d0
        (d1 :: rest) (by simp)]
      have hexp : (ZMod.unitOfCoprime m hx : (ZMod n)ˣ) ^ (d0 * (d1 :: rest).prod) =
          ZMod.unitOfCoprime m hx ^ priv.D := by
        apply zpow_congr_of_pow_eq_one hupow
        show (d0 * (d1 :: rest).prod) % ((phi : ℕ) : ℤ) = priv.D % ((phi : ℕ) : ℤ)
        rw [← hprod]
        conv_rhs => rw [List.prod_cons]
      rw [unitPowVal_eq_of_zpow_eq hx hexp]
    · -- Addition
      have hlen : ds.length = k := splitAdditiveRel_length hk2 hrel
      obtain ⟨d0, d1, rest, rfl⟩ : ∃ d0 d1 rest, ds = d0 :: d1 :: rest := by
        match ds, hlen with
        | dx :: dy :: rest, _ => exact ⟨dx, dy, rest, rfl⟩
        | [], hlen =>
          simp at hlen
          omega
        | [dx], hlen =>
          simp at hlen
          omega
      have hsum : (d0 :: d1 :: rest).sum % (phi : ℤ) = priv.D % (phi : ℤ) :=
        splitAdditiveRel_sum hrel
      rw [hshards, hsb]
      rw [signChain_additive_eq random priv.PublicKey hashFn hashed hinfo hk hn rfl hlt hx d0
        (d1 :: rest) (by simp)]
      have hexp : (ZMod.unitOfCoprime m hx : (ZMod n)ˣ) ^ (d0 + (d1 :: rest).sum) =
          ZMod.unitOfCoprime m hx ^ priv.D := by
        apply zpow_congr_of_pow_eq_one hupow
        show (d0 + (d1 :: rest).sum) % ((phi : ℕ) : ℤ) = priv.D % ((phi : ℕ) : ℤ)
        rw [← hsum]
        conv_rhs => rw [List.sum_cons]
      rw [unitPowVal_eq_of_zpow_eq hx hexp]
  constructor
  · rw [hchain, hfinal]
  · intro hfull
    have hvlt : m ^ priv.D.toNat % n < n := Nat.mod_lt _ (by omega)
    apply verify_accepts priv.PublicKey hashFn hashed hinfo hk rfl hlt hbytes hE0 _ hvlt hfull
    -- the RSA verification equation from `E * D ≡ 1 (mod phi)`
    have hv : m ^ priv.D.toNat % n = unitPowVal n m hx priv.D := hfinal.symm
    rw [hv]
    have hEnat : priv.PublicKey.E = ((priv.PublicKey.E.toNat : ℕ) : ℤ) := by omega
    have hpow : ((u ^ priv.D : (ZMod n)ˣ) : ZMod n) ^ priv.PublicKey.E.toNat =
        ((u : (ZMod n)ˣ) : ZMod n) := by
      rw [← Units.val_pow_eq_pow_val]
      congr 1
      rw [← zpow_natCast (u ^ priv.D), ← zpow_mul]
      have : priv.D * ((priv.PublicKey.E.toNat : ℕ) : ℤ) ≡ 1 [ZMOD ((phi : ℕ) : ℤ)] := by
        rw [← hEnat]
        calc priv.D * priv.PublicKey.E = priv.PublicKey.E * priv.D := by ring
          _ ≡ 1 [ZMOD ((phi : ℕ) : ℤ)] := by
              rw [hphiprod]
              exact hed
      have h1 : u ^ (priv.D * ((priv.PublicKey.E.toNat : ℕ) : ℤ)) = u ^ (1 : ℤ) :=
        zpow_congr_of_pow_eq_one hupow this
      rw [h1, zpow_one]
    calc unitPowVal n m hx priv.D ^ priv.PublicKey.E.toNat % n
        = (((u ^ priv.D : (ZMod n)ˣ) : ZMod n) ^ priv.PublicKey.E.toNat).val := by
          rw [val_pow_mod hn]
          rfl
      _ = ((u : (ZMod n)ˣ) : ZMod n).val := by rw [hpow]
      _ = m % n := by
          rw [hudef, ZMod.coe_unitOfCoprime, ZMod.val_natCast]

/-! Constructors for concrete split outputs, and concrete test keys.
`tinyKey` is the 2-prime RSA key `(N, e, d) = (55, 3, 27)` with
`phi = 40`; `mediumKey` is a 6-prime 94-bit key whose modulus has byte
length 12, large enough for PKCS#1 v1.5 with a raw 1-byte digest. -/

theorem splitDRel_additive_of (priv : PrivateKey) (phi : ℕ) (k : ℕ) (ds : List ℤ)
    (hphi : eulerTotient priv.Primes = some phi) (hk : ¬k < 2)
    (hrel : splitAdditiveRel priv.D (phi : ℤ) k ds) :
    SplitDRel priv k Addition
      (.ok (ds.map fun di => (⟨priv.PublicKey, di⟩ : SplitPrivateKey))) := by
  unfold SplitDRel
  rw [if_neg hk, hphi]
  simp only []
  rw [if_neg (by decide : ¬Addition = Multiplication), if_pos trivial]
  exact ⟨ds, rfl, hrel⟩

theorem splitDRel_mult_of (priv : PrivateKey) (phi : ℕ) (k : ℕ) (ds : List ℤ)
    (hphi : eulerTotient priv.Primes = some phi) (hk : ¬k < 2)
    (hrel : splitMultiplicativeRel (phi : ℤ) priv.D k ds) :
    SplitDRel priv k Multiplication
      (.ok (ds.map fun di => (⟨priv.PublicKey, di⟩ : SplitPrivateKey))) := by
  unfold SplitDRel
  rw [if_neg hk, hphi]
  simp only []
  rw [if_pos trivial]
  exact ⟨ds, rfl, hrel⟩

/-- A 2-prime test key: `N = 5 * 11 = 55`, `phi = 40`, `e = 3`,
`d = 27` (`3 * 27 = 81 ≡ 1 (mod 40)`). -/
def tinyKey : PrivateKey := ⟨⟨55, 3⟩, 27, [5, 11]⟩

/-- A 6-prime 94-bit test key with `e = 5`; the modulus byte length is
12, so PKCS#1 v1.5 with the `hash = 0` (sign-the-input-directly) mode
and a 1-byte digest fits. -/
def mediumKey : PrivateKey :=
  ⟨⟨19645556995852164593201001461, 5⟩, 15714625622367643588153081037,
    [57809, 56827, 48847, 47903, 50123, 50989]⟩

theorem mediumKey_primes_prime : ∀ p ∈ mediumKey.Primes, Nat.Prime p := by
  intro p hp
  simp only [mediumKey, List.mem_cons, List.not_mem_nil, or_false] at hp
  rcases hp with rfl | rfl | rfl | rfl | rfl | rfl <;> norm_num

theorem mediumKey_phi : eulerTotient mediumKey.Primes = some 19643282027959554485191351296 := by
  decide

theorem eulerTotient_short {ps : List ℕ} (h : ps.length < 2) : eulerTotient ps = none := by
  match ps with
  | [] => rfl
  | [p] => rfl
  | p0 :: p1 :: rest =>
    simp only [List.length_cons] at h
    omega

theorem int_gcd_one_of_mul_emod {a ai phi : ℤ} (hphi : 1 < phi)
    (h : a * ai % phi = 1 % phi) : Int.gcd ai phi = 1 := by
  have hdvd : phi ∣ 1 - a * ai := Int.ModEq.dvd h
  obtain ⟨t, ht⟩ := hdvd
  rw [Int.gcd_eq_one_iff_coprime]
  exact ⟨a, t, by linarith⟩

theorem int_gcd_one_mul {a b phi : ℤ} (ha : Int.gcd a phi = 1) (hb : Int.gcd b phi = 1) :
    Int.gcd (a * b) phi = 1 := by
  rw [Int.gcd_eq_one_iff_coprime] at ha hb ⊢
  exact IsCoprime.mul_left ha hb

/-- Invariants of every reachable `splitMultiplicative` output: all shards
are nonnegative and coprime to `phi`, and all but the last are accepted
rejection-sampling draws, hence within `(1, phi)`.  The final shard is
`seed * a⁻¹`, never reduced modulo `phi`, so no range bound holds for it. -/
theorem splitMultiplicativeRel_invariants {phi : ℤ} (hphi : 1 < phi) :
    ∀ {seed : ℤ} {k : ℕ} {ds : List ℤ}, splitMultiplicativeRel phi seed k ds →
      0 ≤ seed → Int.gcd seed phi = 1 →
      (∀ x ∈ ds, 0 ≤ x ∧ Int.gcd x phi = 1) ∧ ∀ x ∈ ds.dropLast, 1 < x ∧ x < phi := by
  intro seed k ds hrel
  induction hrel with
  | @base seed a b hseed =>
    intro hs0 hsg
    obtain ⟨⟨ha0, haphi, hag, hane0, hane1, -⟩, ai, ⟨hai0, haiphi, haiinv⟩, rfl⟩ := hseed
    have haig : Int.gcd ai phi = 1 := int_gcd_one_of_mul_emod hphi haiinv
    constructor
    · intro x hx
      simp only [List.mem_cons, List.not_mem_nil, or_false] at hx
      rcases hx with rfl | rfl
      · exact ⟨ha0, hag⟩
      · exact ⟨mul_nonneg hs0 hai0, int_gcd_one_mul hsg haig⟩
    · intro x hx
      simp only [List.dropLast, List.mem_singleton] at hx
      subst hx
      exact ⟨by omega, haphi⟩
  | @step seed a b k ds hseed htail ih =>
    intro hs0 hsg
    obtain ⟨⟨ha0, haphi, hag, hane0, hane1, -⟩, ai, ⟨hai0, haiphi, haiinv⟩, rfl⟩ := hseed
    have haig : Int.gcd ai phi = 1 := int_gcd_one_of_mul_emod hphi haiinv
    obtain ⟨ih1, ih2⟩ := ih (mul_nonneg hs0 hai0) (int_gcd_one_mul hsg haig)
    constructor
    · intro x hx
      rcases List.mem_cons.mp hx with rfl | hx
      · exact ⟨ha0, hag⟩
      · exact ih1 x hx
    · intro x hx
      have hlen : ds.length = k + 2 := splitMultiplicativeRel_length htail
      obtain ⟨d1, ds2, rfl⟩ : ∃ d1 ds2, ds = d1 :: ds2 := by
        match ds, hlen with
        | dx :: rest, _ => exact ⟨dx, rest, rfl⟩
        | [], hlen => simp at hlen
      rw [List.dropLast_cons₂] at hx
      rcases List.mem_cons.mp hx with rfl | hx
      · exact ⟨by omega, haphi⟩
      · exact ih2 x hx

/-- The earlier `(*SplitPrivateKey).EncodePEM()` (splitprivatekey source,
lines 33-57): DER-marshal the placeholder struct without a scheme field
and wrap it in the same PEM block type. -/
def encodePEMOld (spk : SplitPrivateKey) : PEMBlock :=
  ⟨pemType, marshalSplitPrivateKey spk⟩

/-- A chain over mapped additive shards computes `x ^ (sum of the
exponents)`, stated over the whole list so permutations can be compared. -/
theorem signChain_additive_sum (random : RandomSource) (pub : PublicKey) (hashFn : ℕ)
    (hashed : List ℕ) {hashLen : ℕ} {pfx : List ℕ} {x : ℕ}
    (hinfo : pkcs1v15HashInfo hashFn hashed.length = .ok (hashLen, pfx))
    (hk : pfx.length + hashLen + 11 ≤ modSize pub.N)
    (hn : 1 < pub.N)
    (hxeq : emInt (modSize pub.N) (pfx.length + hashLen) pfx hashed = x)
    (hlt : x < pub.N)
    (hx : Nat.Coprime x pub.N)
    (ds : List ℤ) (h2 : 2 ≤ ds.length) :
    signChain random (ds.map fun di => (⟨pub, di⟩ : SplitPrivateKey)) hashFn hashed Addition =
      .ok (natBytes (unitPowVal pub.N x hx ds.sum)) := by
  obtain ⟨d0, d1, rest, rfl⟩ : ∃ d0 d1 rest, ds = d0 :: d1 :: rest := by
    match ds, h2 with
    | dx :: dy :: rest, _ => exact ⟨dx, dy, rest, rfl⟩
    | [], h2 => simp at h2
    | [dx], h2 => simp at h2
  rw [signChain_additive_eq random pub hashFn hashed hinfo hk hn hxeq hlt hx d0 (d1 :: rest)
    (by simp)]
  conv_rhs => rw [List.sum_cons]

/-- A list of shards all carrying the public key `pub` is the mapped list
of its exponents. -/
theorem map_shards_of_pub (pub : PublicKey) (l : List SplitPrivateKey)
    (h : ∀ s ∈ l, s.PublicKey = pub) :
    l = (l.map fun s => s.D).map fun di => (⟨pub, di⟩ : SplitPrivateKey) := by
  induction l with
  | nil => rfl
  | cons s t ih =>
    simp only [List.map_cons]
    have hs : s = ⟨pub, s.D⟩ := by
      obtain ⟨sp, sd⟩ := s
      have hp := h ⟨sp, sd⟩ (List.mem_cons_self _ _)
      simp only [] at hp
      rw [hp]
    rw [← ih fun x hx => h x (List.mem_cons_of_mem _ hx), ← hs]

/-! The ten claims. -/

/-- C5: under the Addition scheme the sequential chain is order
independent — for any split produced by `SplitD(key, k, Addition)` and
any permutation of its shards, the chain over the permutation returns
the same bytes (hence the same signature integer) as the chain over the
original order. -/
theorem c5_additive_order_independent (random : RandomSource) (priv : PrivateKey) (k : ℕ)
    (shards shards2 : List SplitPrivateKey) (hashFn : ℕ) (hashed : List ℕ)
    {hashLen : ℕ} {pfx : List ℕ}
    (hinfo : pkcs1v15HashInfo hashFn hashed.length = .ok (hashLen, pfx))
    (hk : pfx.length + hashLen + 11 ≤ modSize priv.PublicKey.N)
    (hn : 1 < priv.PublicKey.N)
    (hlt : emInt (modSize priv.PublicKey.N) (pfx.length + hashLen) pfx hashed <
      priv.PublicKey.N)
    (hx : Nat.Coprime (emInt (modSize priv.PublicKey.N) (pfx.length + hashLen) pfx hashed)
      priv.PublicKey.N)
    (hsplit : SplitDRel priv k Addition (.ok shards))
    (hperm : shards.Perm shards2) :
    signChain random shards2 hashFn hashed Addition =
      signChain random shards hashFn hashed Addition := by
  obtain ⟨hk2, phi, hphi, hcase⟩ := SplitDRel_ok hsplit
  rcases hcase with ⟨hm, -⟩ | ⟨-, ds, hshards, hrel⟩
  · exact absurd hm (by decide)
  · have hlen : ds.length = k := splitAdditiveRel_length hk2 hrel
    have hpub : ∀ s ∈ shards2, s.PublicKey = priv.PublicKey := by
      intro s hs
      have hs2 : s ∈ shards := (hperm.mem_iff).mpr hs
      rw [hshards] at hs2
      obtain ⟨di, -, rfl⟩ := List.mem_map.mp hs2
      rfl
    have hshards2 : shards2 = (shards2.map fun s => s.D).map
        fun di => (⟨priv.PublicKey, di⟩ : SplitPrivateKey) :=
      map_shards_of_pub _ _ hpub
    have hid : List.map ((fun s => s.D) ∘ fun di =>
        (⟨priv.PublicKey, di⟩ : SplitPrivateKey)) ds = ds := List.map_id' ds
    have hdperm : ds.Perm (shards2.map fun s => s.D) := by
      have h1 := hperm.map fun s => s.D
      rw [hshards, List.map_map, hid] at h1
      exact h1
    have hlen2 : 2 ≤ (shards2.map fun s => s.D).length := by
      rw [← hdperm.length_eq]
      omega
    rw [hshards, hshards2]
    rw [signChain_additive_sum random priv.PublicKey hashFn hashed hinfo hk hn rfl hlt hx _
      hlen2]
    rw [signChain_additive_sum random priv.PublicKey hashFn hashed hinfo hk hn rfl hlt hx ds
      (by omega)]
    rw [hdperm.sum_eq]

/-- C5 witness: the chain over a reachable 2-shard additive split of the
medium key, evaluated in both orders, yields the same result. -/
theorem c5_additive_order_independent_witness :
    signChain 0 [⟨mediumKey.PublicKey, 15714625622367643488153081034⟩,
        ⟨mediumKey.PublicKey, 100000000003⟩] 0 [5] Addition =
      signChain 0 [⟨mediumKey.PublicKey, 100000000003⟩,
        ⟨mediumKey.PublicKey, 15714625622367643488153081034⟩] 0 [5] Addition :=
  c5_additive_order_independent 0 mediumKey 2 _ _ 0 [5]
    (show pkcs1v15HashInfo 0 (List.length [5]) = .ok (1, ([] : List ℕ)) from rfl)
    (by decide) (by decide) (by decide) (by decide)
    (splitDRel_additive_of mediumKey 19643282027959554485191351296 2
      [100000000003, 15714625622367643488153081034] mediumKey_phi (by decide)
      ⟨[100000000003], 15714625622367643488153081034, rfl, rfl, by decide, by decide,
        by decide⟩)
    (List.Perm.swap _ _ _)

/-- C6: evaluation at the failing input.  A reachable multiplicative
2-shard split of the medium key for which the terminal `SignNext` call
returns only 11 bytes while `k_N = 12`: the terminal branch emits
`nextSig.Bytes()`, the minimal big-endian encoding, instead of
left-padding with `FillBytes` as `signPKCS1v15` does, so a signature
integer with a leading zero byte comes back short. -/
theorem c6_terminal_not_padded :
    SplitDRel mediumKey 2 Multiplication
      (.ok [⟨mediumKey.PublicKey, 100000007⟩,
        ⟨mediumKey.PublicKey, 198499269640234295939918175107501512216743826526657634955⟩]) ∧
    signChain 0 [⟨mediumKey.PublicKey, 100000007⟩,
        ⟨mediumKey.PublicKey, 198499269640234295939918175107501512216743826526657634955⟩]
        0 [98] Multiplication =
      .ok (natBytes 44569776304240295455953696) ∧
    (natBytes 44569776304240295455953696).length = 11 ∧
    modSize mediumKey.PublicKey.N = 12 ∧
    fillBytes 44569776304240295455953696 12 ≠ natBytes 44569776304240295455953696 :=
  ⟨splitDRel_mult_of mediumKey 19643282027959554485191351296 2
     [100000007, 198499269640234295939918175107501512216743826526657634955] mediumKey_phi
     (by decide)
     (.base ⟨by decide, 12631498478570016964767276215, by decide, by decide⟩),
   by decide, by decide, by decide, by decide⟩

theorem decodePEMOld_parse (bs : List ℕ) (spk : SplitPrivateKey) (rest : List ℕ)
    (h : unmarshalSplitPrivateKey bs = some (spk, rest)) :
    decodePEMOld (some ⟨pemType, bs⟩) = .ok spk := by
  simp only [decodePEMOld]
  rw [if_neg (show ¬pemType ≠ pemType from fun h2 => h2 rfl)]
  rw [h]

/-- C7: amended round-trip statement.  Decoding the PEM encoding of a
shard preserves the modulus, the public exponent and (for the later
codec, whose struct carries it) the scheme tag, but returns the ABSOLUTE
VALUE of the shard exponent: the encoder marshals `D.Bytes()`, Go's
sign-free magnitude.  The round trip is the identity exactly on shards
with `0 ≤ D`; negative exponents are reachable (`c7_counterexample`), so
the spec's unconditional `decode_pem(encode_pem(shard)) = shard` fails.
Stated for both codec versions in the snapshot. -/
theorem c7_roundtrip_abs (pks : PrivateKeyShard) (spk : SplitPrivateKey)
    (hE : 0 ≤ pks.PublicKey.E) (hSB : 0 ≤ pks.SplitBy)
    (hE2 : 0 ≤ spk.PublicKey.E) :
    DecodePEM (some (EncodePEM pks)) [] =
      .ok ⟨pks.PublicKey, (pks.D.natAbs : ℤ), pks.SplitBy⟩ ∧
    decodePEMOld (some (encodePEMOld spk)) = .ok ⟨spk.PublicKey, (spk.D.natAbs : ℤ)⟩ := by
  constructor
  · simp only [DecodePEM, EncodePEM]
    rw [if_neg (show ¬pemType ≠ pemType from fun h => h rfl)]
    rw [if_neg (show ¬([] : List ℕ) ≠ [] from fun h => h rfl)]
    have hm := unmarshalPrivateKeyShard_marshal pks hE hSB []
    rw [List.append_nil] at hm
    rw [hm]
    simp only []
    rw [if_neg (show ¬([] : List ℕ) ≠ [] from fun h => h rfl)]
  · have hm := unmarshalSplitPrivateKey_marshal spk hE2 []
    rw [List.append_nil] at hm
    exact decodePEMOld_parse _ _ _ hm

/-- C7 witness: the amended round trip evaluated at a reachable negative
shard of the tiny key — both codecs decode the encoding of `-8` to `8`. -/
theorem c7_roundtrip_abs_witness :
    DecodePEM (some (EncodePEM ⟨tinyKey.PublicKey, -8, Addition⟩)) [] =
      .ok ⟨tinyKey.PublicKey, 8, Addition⟩ ∧
    decodePEMOld (some (encodePEMOld ⟨tinyKey.PublicKey, -8⟩)) =
      .ok ⟨tinyKey.PublicKey, 8⟩ :=
  c7_roundtrip_abs ⟨tinyKey.PublicKey, -8, Addition⟩ ⟨tinyKey.PublicKey, -8⟩ (by decide)
    (by decide) (by decide)

/-- C7 counterexample: the additive correction shard of the tiny key can
be negative — the draws `21, 23, 31` are all accepted samples, their sum
`75` exceeds `φ + d = 67`, and the correction step computes
`40 - 75 + 27 = -8` — and both codecs decode the encoding of the shard
exponent `-8` to `+8`, so `decode_pem(encode_pem(shard)) ≠ shard` on a
reachable shard. -/
theorem c7_counterexample :
    SplitDRel tinyKey 4 Addition
      (.ok [⟨tinyKey.PublicKey, 21⟩, ⟨tinyKey.PublicKey, 23⟩, ⟨tinyKey.PublicKey, 31⟩,
        ⟨tinyKey.PublicKey, -8⟩]) ∧
    DecodePEM (some (EncodePEM ⟨tinyKey.PublicKey, -8, Addition⟩)) [] =
      .ok ⟨tinyKey.PublicKey, 8, Addition⟩ ∧
    (⟨tinyKey.PublicKey, 8, Addition⟩ : PrivateKeyShard) ≠
      ⟨tinyKey.PublicKey, -8, Addition⟩ ∧
    decodePEMOld (some (encodePEMOld ⟨tinyKey.PublicKey, -8⟩)) =
      .ok ⟨tinyKey.PublicKey, 8⟩ ∧
    (⟨tinyKey.PublicKey, 8⟩ : SplitPrivateKey) ≠ ⟨tinyKey.PublicKey, -8⟩ :=
  ⟨splitDRel_additive_of tinyKey 40 4 [21, 23, 31, -8] (by decide) (by decide)
     ⟨[21, 23, 31], -8, rfl, rfl, by decide, by decide, by decide⟩,
   by decide, by decide, by decide, by decide⟩

/-- C8: the later codec's `DecodePEM` rejects a DER payload the
unmarshaler does not consume entirely, a missing PEM block, and a block
of the wrong type, each with a non-nil error. -/
theorem c8_decode_errors (blk blk2 : PEMBlock) (pks : PrivateKeyShard)
    (derRest pemRest : List ℕ)
    (hder : unmarshalPrivateKeyShard blk.blockBytes = some (pks, derRest))
    (hne : derRest ≠ [])
    (htype : blk.blockType = pemType)
    (htype2 : blk2.blockType ≠ pemType) :
    DecodePEM (some blk) [] = .err "failed to unmarshal DER-encoded private key shard" ∧
    DecodePEM none pemRest = .err "failed to decode PEM block containing private key shard" ∧
    DecodePEM (some blk2) pemRest =
      .err "failed to decode PEM block containing private key shard" := by
  refine ⟨?_, rfl, ?_⟩
  · simp only [DecodePEM]
    rw [htype]
    rw [if_neg (show ¬pemType ≠ pemType from fun h => h rfl)]
    rw [if_neg (show ¬([] : List ℕ) ≠ [] from fun h => h rfl)]
    rw [hder]
    simp only []
    rw [if_pos hne]
  · simp only [DecodePEM]
    rw [if_pos htype2]

/-- C8 witness: the three rejections evaluated concretely — a valid
encoding followed by one trailing DER byte, a missing block, and a block
of the wrong type. -/
theorem c8_decode_errors_witness :
    DecodePEM (some ⟨pemType, marshalPrivateKeyShard ⟨⟨55, 3⟩, 27, Addition⟩ ++ [0]⟩) [] =
      .err "failed to unmarshal DER-encoded private key shard" ∧
    DecodePEM none [1] = .err "failed to decode PEM block containing private key shard" ∧
    DecodePEM (some ⟨"NOT A SHARD", []⟩) [1] =
      .err "failed to decode PEM block containing private key shard" :=
  c8_decode_errors ⟨pemType, marshalPrivateKeyShard ⟨⟨55, 3⟩, 27, Addition⟩ ++ [0]⟩
    ⟨"NOT A SHARD", []⟩ ⟨⟨55, 3⟩, 27, Addition⟩ [0] [1] (by decide) (by decide) rfl (by decide)

/-- C8 counterexample against the earlier codec the claim's code source
names (splitprivatekey source, lines 59-77): that `DecodePEM` discards
the unmarshal remainder, so a payload with one trailing DER byte decodes
with a nil error instead of a decoding error. -/
theorem c8_counterexample :
    decodePEMOld (some ⟨pemType, marshalSplitPrivateKey ⟨⟨55, 3⟩, 27⟩ ++ [0]⟩) =
      .ok ⟨⟨55, 3⟩, 27⟩ := by
  decide

/-- C9: amended safety statement.  When the key has fewer than two primes
and `k ≥ 2` passes the arity check, `SplitD` does not return a typed
error: `eulerTotient` indexes `primes[0]` and `primes[1]` unconditionally
and the call panics. -/
theorem c9_short_primes_panic (priv : PrivateKey) (k : ℕ) (sb : SplitBy)
    (hshort : priv.Primes.length < 2) (hk : 2 ≤ k) :
    SplitDRel priv k sb GoResult.panicked := by
  unfold SplitDRel
  rw [if_neg (by omega : ¬k < 2), eulerTotient_short hshort]

/-- C9 witness: a one-prime key panics under the amended statement. -/
theorem c9_short_primes_panic_witness :
    SplitDRel ⟨⟨7, 3⟩, 5, [7]⟩ 3 Multiplication GoResult.panicked :=
  c9_short_primes_panic ⟨⟨7, 3⟩, 5, [7]⟩ 3 Multiplication (by decide) (by decide)

/-- C9 counterexample: for a concrete one-prime key and `k = 2`, the only
outcome `SplitD` can produce is a panic — in particular it is not an
error of any kind, refuting the claim that a fewer-than-two-primes key
yields a typed `BadArity` error. -/
theorem c9_counterexample :
    ([7] : List ℕ).length < 2 ∧
    (∀ out : GoResult (List SplitPrivateKey),
      SplitDRel ⟨⟨7, 3⟩, 5, [7]⟩ 2 Addition out = (out = GoResult.panicked)) ∧
    SplitDRel ⟨⟨7, 3⟩, 5, [7]⟩ 2 Addition GoResult.panicked :=
  ⟨by decide, fun out => rfl, rfl⟩

/-- C1: amended sequential-flow correctness.  For a valid multi-prime
RSA key, a well-formed PKCS#1 v1.5 encoded message coprime to the
modulus, and any successful split under either scheme, the chain of
`SignFirst` and `SignNext` calls over all the shards succeeds with the
minimal big-endian bytes of the signature integer `EM ^ d mod N`, and
whenever those bytes happen to be full length (the signature integer has
no leading zero byte) the PKCS#1 v1.5 verifier accepts them.  (The
unconditional byte-level acceptance the spec states is refuted by
`c1_counterexample`: the terminal `SignNext` emits `Bytes()` without
left-padding.) -/
theorem c1_chain_verifies (random : RandomSource) (priv : PrivateKey) (k : ℕ) (sb : SplitBy)
    (shards : List SplitPrivateKey) (hashFn : ℕ) (hashed : List ℕ)
    {hashLen : ℕ} {pfx : List ℕ}
    (hprimes : ∀ p ∈ priv.Primes, Nat.Prime p)
    (hdistinct : priv.Primes.Pairwise (fun a b => a ≠ b))
    (hN : priv.PublicKey.N = priv.Primes.prod)
    (hn : 1 < priv.PublicKey.N)
    (hd0 : 0 ≤ priv.D)
    (hE0 : 0 ≤ priv.PublicKey.E)
    (hed : priv.PublicKey.E * priv.D ≡ 1 [ZMOD (((priv.Primes.map (· - 1)).prod : ℕ) : ℤ)])
    (hinfo : pkcs1v15HashInfo hashFn hashed.length = .ok (hashLen, pfx))
    (hk : pfx.length + hashLen + 11 ≤ modSize priv.PublicKey.N)
    (hbytes : ∀ b ∈ hashed, b < 256)
    (hlt : emInt (modSize priv.PublicKey.N) (pfx.length + hashLen) pfx hashed <
      priv.PublicKey.N)
    (hx : Nat.Coprime (emInt (modSize priv.PublicKey.N) (pfx.length + hashLen) pfx hashed)
      priv.PublicKey.N)
    (hsplit : SplitDRel priv k sb (.ok shards)) :
    signChain random shards hashFn hashed sb =
      .ok (natBytes (emInt (modSize priv.PublicKey.N) (pfx.length + hashLen) pfx hashed
        ^ priv.D.toNat % priv.PublicKey.N)) ∧
    (256 ^ (modSize priv.PublicKey.N - 1) ≤
        emInt (modSize priv.PublicKey.N) (pfx.length + hashLen) pfx hashed
          ^ priv.D.toNat % priv.PublicKey.N →
      verifyPKCS1v15 priv.PublicKey hashFn hashed
        (natBytes (emInt (modSize priv.PublicKey.N) (pfx.length + hashLen) pfx hashed
          ^ priv.D.toNat % priv.PublicKey.N)) = .ok ()) :=
  chain_correct random priv k sb shards hashFn hashed hprimes hdistinct hN hn hd0 hE0 hed
    hinfo hk hbytes hlt hx hsplit

/-- C1 witness: a reachable additive split of the medium key signing the
raw 1-byte digest `[0]`; here the signature integer is full length, the
chain returns exactly its 12 bytes, and the verifier accepts them. -/
theorem c1_chain_verifies_witness :
    signChain 0 [⟨mediumKey.PublicKey, 10000000001⟩,
        ⟨mediumKey.PublicKey, 15714625622367643578153081036⟩] 0 [0] Addition =
      .ok (natBytes (emInt (modSize mediumKey.PublicKey.N) (List.length ([] : List ℕ) + 1)
        [] [0] ^ mediumKey.D.toNat % mediumKey.PublicKey.N)) ∧
    verifyPKCS1v15 mediumKey.PublicKey 0 [0]
      (natBytes (emInt (modSize mediumKey.PublicKey.N) (List.length ([] : List ℕ) + 1)
        [] [0] ^ mediumKey.D.toNat % mediumKey.PublicKey.N)) = .ok () := by
  have happ := c1_chain_verifies 0 mediumKey 2 Addition
    ([10000000001, 15714625622367643578153081036].map fun di =>
      (⟨mediumKey.PublicKey, di⟩ : SplitPrivateKey)) 0 [0]
    mediumKey_primes_prime (by decide) (by decide) (by decide) (by decide) (by decide)
    (by decide)
    (show pkcs1v15HashInfo 0 (List.length [0]) = .ok (1, ([] : List ℕ)) from rfl)
    (by decide) (by decide) (by decide) (by decide)
    (splitDRel_additive_of mediumKey 19643282027959554485191351296 2
      [10000000001, 15714625622367643578153081036] mediumKey_phi (by decide)
      ⟨[10000000001], 15714625622367643578153081036, rfl, rfl, by decide, by decide,
        by decide⟩)
  have hpow : emInt (modSize mediumKey.PublicKey.N) (List.length ([] : List ℕ) + 1) [] [0]
      ^ mediumKey.D.toNat % mediumKey.PublicKey.N =
      powModNat 2417851639229258349346816 15714625622367643588153081037
        19645556995852164593201001461 := by
    rw [show emInt (modSize mediumKey.PublicKey.N) (List.length ([] : List ℕ) + 1) [] [0] =
      2417851639229258349346816 from by decide]
    rw [show mediumKey.D.toNat = 15714625622367643588153081037 from by decide]
    rw [show mediumKey.PublicKey.N = 19645556995852164593201001461 from by decide]
    exact (powModNat_eq _ _ _).symm
  exact ⟨happ.1, happ.2 (by rw [hpow]; decide)⟩

/-- C1 counterexample: a fully valid medium key and a reachable additive
2-shard split for which the terminal chain output is only 11 bytes
(`Bytes()` drops the leading zero byte of the signature integer instead
of left-padding to `k = 12`), so byte-level PKCS#1 v1.5 verification
rejects the chain's result with a length mismatch. -/
theorem c1_counterexample :
    (∀ p ∈ mediumKey.Primes, Nat.Prime p) ∧
    List.Pairwise (fun a b => a ≠ b) mediumKey.Primes ∧
    mediumKey.PublicKey.N = mediumKey.Primes.prod ∧
    mediumKey.PublicKey.E * mediumKey.D ≡ 1
      [ZMOD (((mediumKey.Primes.map (· - 1)).prod : ℕ) : ℤ)] ∧
    SplitDRel mediumKey 2 Addition
      (.ok [⟨mediumKey.PublicKey, 1000000003⟩,
        ⟨mediumKey.PublicKey, 15714625622367643587153081034⟩]) ∧
    signChain 0 [⟨mediumKey.PublicKey, 1000000003⟩,
        ⟨mediumKey.PublicKey, 15714625622367643587153081034⟩] 0 [91] Addition =
      .ok (natBytes 190319512587903117964218337) ∧
    (natBytes 190319512587903117964218337).length ≠ modSize mediumKey.PublicKey.N ∧
    verifyPKCS1v15 mediumKey.PublicKey 0 [91] (natBytes 190319512587903117964218337) =
      .err "crypto/rsa: verification error" :=
  ⟨mediumKey_primes_prime, by decide, by decide, by decide,
   splitDRel_additive_of mediumKey 19643282027959554485191351296 2
     [1000000003, 15714625622367643587153081034] mediumKey_phi (by decide)
     ⟨[1000000003], 15714625622367643587153081034, rfl, rfl, by decide, by decide,
       by decide⟩,
   by decide, by decide, by decide⟩

/-- C2: a successful `SplitD(key, k, Addition)` returns exactly `k`
shards whose exponents sum to `d` modulo `φ(N) = ∏ (pᵢ - 1)`, checked
with the package's own `congruentModN`. -/
theorem c2_additive_sum (priv : PrivateKey) (k : ℕ) (shards : List SplitPrivateKey)
    (hsplit : SplitDRel priv k Addition (.ok shards)) :
    shards.length = k ∧
      congruentModN ((shards.map fun s => s.D).sum) priv.D
        (((priv.Primes.map (· - 1)).prod : ℕ) : ℤ) = true := by
  obtain ⟨hk2, phi, hphi, hcase⟩ := SplitDRel_ok hsplit
  rcases hcase with ⟨hm, -⟩ | ⟨-, ds, rfl, hrel⟩
  · exact absurd hm (by decide)
  · have hlen := splitAdditiveRel_length hk2 hrel
    have hsum := splitAdditiveRel_sum hrel
    obtain ⟨hphiprod, -⟩ := eulerTotient_some hphi
    have hmap : ((ds.map fun di => (⟨priv.PublicKey, di⟩ : SplitPrivateKey)).map
        fun s => s.D) = ds := by
      rw [List.map_map]
      show List.map (fun di : ℤ => di) ds = ds
      exact List.map_id' ds
    constructor
    · rw [List.length_map]
      exact hlen
    · rw [congruentModN, decide_eq_true_eq, hmap]
      rw [show (((priv.Primes.map (· - 1)).prod : ℕ) : ℤ) = ((phi : ℕ) : ℤ) from by
        rw [hphiprod]]
      exact hsum

/-- C2 witness: splitting the tiny key additively into the reachable
shard list `[3, 9, 15]` (`3 + 9 + 15 = 27 = d`). -/
theorem c2_additive_sum_witness :
    ([⟨tinyKey.PublicKey, 3⟩, ⟨tinyKey.PublicKey, 9⟩, ⟨tinyKey.PublicKey, 15⟩] :
        List SplitPrivateKey).length = 3 ∧
      congruentModN ((([⟨tinyKey.PublicKey, 3⟩, ⟨tinyKey.PublicKey, 9⟩,
          ⟨tinyKey.PublicKey, 15⟩] : List SplitPrivateKey).map fun s => s.D).sum) tinyKey.D
        (((tinyKey.Primes.map (· - 1)).prod : ℕ) : ℤ) = true :=
  c2_additive_sum tinyKey 3 _
    (splitDRel_additive_of tinyKey 40 3 [3, 9, 15] (by decide) (by decide)
      ⟨[3, 9], 15, rfl, rfl, by decide, by decide, by decide⟩)

/-- C3: a successful `SplitD(key, k, Multiplication)` returns exactly `k`
shards whose exponents multiply to `d` modulo `φ(N) = ∏ (pᵢ - 1)`. -/
theorem c3_multiplicative_prod (priv : PrivateKey) (k : ℕ) (shards : List SplitPrivateKey)
    (hsplit : SplitDRel priv k Multiplication (.ok shards)) :
    shards.length = k ∧
      congruentModN ((shards.map fun s => s.D).prod) priv.D
        (((priv.Primes.map (· - 1)).prod : ℕ) : ℤ) = true := by
  obtain ⟨hk2, phi, hphi, hcase⟩ := SplitDRel_ok hsplit
  rcases hcase with ⟨-, ds, rfl, hrel⟩ | ⟨ha, -⟩
  · have hlen := splitMultiplicativeRel_length hrel
    have hprod := splitMultiplicativeRel_prod hrel
    obtain ⟨hphiprod, -⟩ := eulerTotient_some hphi
    have hmap : ((ds.map fun di => (⟨priv.PublicKey, di⟩ : SplitPrivateKey)).map
        fun s => s.D) = ds := by
      rw [List.map_map]
      show List.map (fun di : ℤ => di) ds = ds
      exact List.map_id' ds
    constructor
    · rw [List.length_map]
      exact hlen
    · rw [congruentModN, decide_eq_true_eq, hmap]
      rw [show (((priv.Primes.map (· - 1)).prod : ℕ) : ℤ) = ((phi : ℕ) : ℤ) from by
        rw [hphiprod]]
      exact hprod
  · exact absurd ha (by decide)

/-- C3 witness: splitting the tiny key multiplicatively into the
reachable shard list `[7, 621]` (`7 * 621 = 4347 ≡ 27 (mod 40)`). -/
theorem c3_multiplicative_prod_witness :
    ([⟨tinyKey.PublicKey, 7⟩, ⟨tinyKey.PublicKey, 621⟩] :
        List SplitPrivateKey).length = 2 ∧
      congruentModN ((([⟨tinyKey.PublicKey, 7⟩, ⟨tinyKey.PublicKey, 621⟩] :
          List SplitPrivateKey).map fun s => s.D).prod) tinyKey.D
        (((tinyKey.Primes.map (· - 1)).prod : ℕ) : ℤ) = true :=
  c3_multiplicative_prod tinyKey 2 _
    (splitDRel_mult_of tinyKey 40 2 [7, 621] (by decide) (by decide)
      (.base ⟨by decide, 23, by decide, by decide⟩))

/-- C4: amended shard invariants.  Additive: the shards are pairwise
distinct and the first `k - 1` of them (the freshly sampled ones) lie in
`(1, φ)` and are coprime to `φ`; the corrected final shard satisfies no
such bound in general.  Multiplicative: every shard is nonnegative and
coprime to `φ`, and every shard but the last lies in `(1, φ)`; the final
shard `seed * a⁻¹` is not reduced modulo `φ`.  Distinctness is not
enforced multiplicatively. -/
theorem c4_shard_invariants (priv : PrivateKey) (k : ℕ) (sb : SplitBy) (phi : ℕ)
    (shards : List SplitPrivateKey)
    (hphi : eulerTotient priv.Primes = some phi)
    (hphi1 : 1 < (phi : ℤ))
    (hD0 : 0 ≤ priv.D)
    (hDg : Int.gcd priv.D (phi : ℤ) = 1)
    (hsplit : SplitDRel priv k sb (.ok shards)) :
    (sb = Addition →
      List.Pairwise (fun a b => a ≠ b) (shards.map fun s => s.D) ∧
        ∀ x ∈ (shards.map fun s => s.D).take (k - 1),
          1 < x ∧ x < (phi : ℤ) ∧ Int.gcd x (phi : ℤ) = 1) ∧
    (sb = Multiplication →
      (∀ x ∈ shards.map fun s => s.D, 0 ≤ x ∧ Int.gcd x (phi : ℤ) = 1) ∧
        ∀ x ∈ (shards.map fun s => s.D).dropLast, 1 < x ∧ x < (phi : ℤ)) := by
  obtain ⟨hk2, phi2, hphi2, hcase⟩ := SplitDRel_ok hsplit
  rw [hphi] at hphi2
  injection hphi2 with hphieq
  subst hphieq
  constructor
  · intro hsb
    rcases hcase with ⟨hm, -⟩ | ⟨-, ds, rfl, hrel⟩
    · rw [hsb] at hm
      exact absurd hm (by decide)
    · have hmap : ((ds.map fun di => (⟨priv.PublicKey, di⟩ : SplitPrivateKey)).map
          fun s => s.D) = ds := by
        rw [List.map_map]
        show List.map (fun di : ℤ => di) ds = ds
        exact List.map_id' ds
      rw [hmap]
      obtain ⟨init, dk, rfl, hlen, hvalid, hlast, hpair⟩ := hrel
      refine ⟨hpair, ?_⟩
      rw [← hlen, List.take_left]
      intro x hx
      obtain ⟨hx0, hxphi, hxg, hxne0, hxne1, -⟩ := hvalid x hx
      exact ⟨by omega, hxphi, hxg⟩
  · intro hsb
    rcases hcase with ⟨-, ds, rfl, hrel⟩ | ⟨ha, -⟩
    · have hmap : ((ds.map fun di => (⟨priv.PublicKey, di⟩ : SplitPrivateKey)).map
          fun s => s.D) = ds := by
        rw [List.map_map]
        show List.map (fun di : ℤ => di) ds = ds
        exact List.map_id' ds
      rw [hmap]
      exact splitMultiplicativeRel_invariants hphi1 hrel hD0 hDg
    · rw [hsb] at ha
      exact absurd ha (by decide)

/-- C4 witness: the amended invariants evaluated at the additive split
`[3, 9, 15]` of the tiny key. -/
theorem c4_shard_invariants_witness :
    (Addition = Addition →
      List.Pairwise (fun a b => a ≠ b)
        (([⟨tinyKey.PublicKey, 3⟩, ⟨tinyKey.PublicKey, 9⟩, ⟨tinyKey.PublicKey, 15⟩] :
            List SplitPrivateKey).map fun s => s.D) ∧
        ∀ x ∈ (([⟨tinyKey.PublicKey, 3⟩, ⟨tinyKey.PublicKey, 9⟩, ⟨tinyKey.PublicKey, 15⟩] :
            List SplitPrivateKey).map fun s => s.D).take (3 - 1),
          1 < x ∧ x < ((40 : ℕ) : ℤ) ∧ Int.gcd x ((40 : ℕ) : ℤ) = 1) ∧
    (Addition = Multiplication →
      (∀ x ∈ ([⟨tinyKey.PublicKey, 3⟩, ⟨tinyKey.PublicKey, 9⟩, ⟨tinyKey.PublicKey, 15⟩] :
          List SplitPrivateKey).map fun s => s.D, 0 ≤ x ∧ Int.gcd x ((40 : ℕ) : ℤ) = 1) ∧
        ∀ x ∈ (([⟨tinyKey.PublicKey, 3⟩, ⟨tinyKey.PublicKey, 9⟩, ⟨tinyKey.PublicKey, 15⟩] :
            List SplitPrivateKey).map fun s => s.D).dropLast, 1 < x ∧ x < ((40 : ℕ) : ℤ)) :=
  c4_shard_invariants tinyKey 3 Addition 40 _ (by decide) (by decide) (by decide) (by decide)
    (splitDRel_additive_of tinyKey 40 3 [3, 9, 15] (by decide) (by decide)
      ⟨[3, 9], 15, rfl, rfl, by decide, by decide, by decide⟩)

/-- C4 counterexample: both correction steps can break the claimed
invariants on reachable outputs of `SplitD` over the tiny key (`φ = 40`,
`d = 27`).  Additively, `[3, 24]` is reachable and `gcd(24, 40) = 8`;
multiplicatively, `[3, 729]` is reachable (`3⁻¹ = 27 mod 40`,
`27 * 27 = 729`, never reduced) and `729 > 40`. -/
theorem c4_counterexample :
    eulerTotient tinyKey.Primes = some 40 ∧
    SplitDRel tinyKey 2 Addition
      (.ok [⟨tinyKey.PublicKey, 3⟩, ⟨tinyKey.PublicKey, 24⟩]) ∧
    Int.gcd (24 : ℤ) ((40 : ℕ) : ℤ) = 8 ∧
    SplitDRel tinyKey 2 Multiplication
      (.ok [⟨tinyKey.PublicKey, 3⟩, ⟨tinyKey.PublicKey, 729⟩]) ∧
    ((40 : ℕ) : ℤ) < 729 :=
  ⟨by decide,
   splitDRel_additive_of tinyKey 40 2 [3, 24] (by decide) (by decide)
     ⟨[3], 24, rfl, rfl, by decide, by decide, by decide⟩,
   by decide,
   splitDRel_mult_of tinyKey 40 2 [3, 729] (by decide) (by decide)
     (.base ⟨by decide, 27, by decide, by decide⟩),
   by decide⟩

/-- C10: under the Multiplication scheme, `SignNext` reads only the
partial signature, the shard, and the modulus: the random reader, the
hash function, and the hashed bytes never affect the result. -/
theorem c10_mult_next_ignores_hash (r1 r2 : RandomSource) (hash1 hash2 : ℕ)
    (hashed1 hashed2 : List ℕ) (shard : SplitPrivateKey) (partSig : List ℕ) :
    SignNext r1 shard hash1 hashed1 Multiplication partSig =
      SignNext r2 shard hash2 hashed2 Multiplication partSig := by
  unfold SignNext
  rw [if_pos (rfl : Multiplication = Multiplication),
    if_pos (rfl : Multiplication = Multiplication)]

end Keysplitting
